import Mathlib

set_option maxRecDepth 20000

/-!
Verification development for the dnsproxy HTTP facade (package `proxy`).

The Go source is shallowly embedded: pure Go functions become Lean
functions over `String` / `List Nat` (bytes are `Nat` values `< 256`),
stateful handler code becomes explicit result structures.  Library
functions of the Go standard library and of github.com/miekg/dns that the
source calls (`strings.*`, `encoding/base64`, `net/netip` parsing,
`encoding/json` marshalling, DNS message pack/unpack) are modelled as
executable Lean functions mirroring their documented behaviour, with the
restrictions noted at each definition.
-/

namespace DnsProxy

/-! ## Go `strings` helpers (ASCII fragment) -/

/-- Go `unicode.IsSpace` restricted to ASCII: the cutset used by
`strings.TrimSpace`. -/
def goIsSpace (c : Char) : Bool :=
  c = ' ' || c = '\t' || c = '\n' || c = '\x0b' || c = '\x0c' || c = '\r'

/-- Trim characters satisfying `p` from the front and back of a character
list (the shape shared by `strings.TrimSpace` and `strings.Trim`). -/
def listTrim (p : Char → Bool) (cs : List Char) : List Char :=
  ((cs.dropWhile p).reverse.dropWhile p).reverse

/-- Go `strings.TrimSpace` (ASCII inputs). -/
def goTrimSpace (s : String) : String :=
  ⟨listTrim goIsSpace s.data⟩

/-- Go `strings.Trim(s, ".")`. -/
def goTrimDot (s : String) : String :=
  ⟨listTrim (fun c => c = '.') s.data⟩

/-- A single maximal trim of the combined cutset "whitespace or dot" from
both ends.  This is the *specification's* reading of "surrounding
whitespace and dots trimmed" and is used only to formalise claim
sentences, never as a model of the source. -/
def specTrimSpaceDot (s : String) : String :=
  ⟨listTrim (fun c => goIsSpace c || c = '.') s.data⟩

/-- Go `strings.ToUpper` (ASCII inputs). -/
def goToUpper (s : String) : String :=
  ⟨s.data.map Char.toUpper⟩

/-- Whether a string's last character is a dot (`strings.HasSuffix(s, ".")`). -/
def hasSuffixDot (s : String) : Bool :=
  s.data.getLast? = some '.'

/-- `convertFQDN` from the source:
`strings.TrimSpace(strings.Trim(domain, ".")) + "."`. -/
def convertFQDN (domain : String) : String :=
  goTrimSpace (goTrimDot domain) ++ "."

/-- Go `strconv.Atoi` as used by `formatHTTPDNSMsg` through
`ttl, _ := strconv.Atoi(rr[1])`: the error is discarded, so a
non-numeric string yields 0.  Only the successful-digits case matters to
the claims; optional sign handled, empty/malformed input yields 0. -/
def goAtoiOrZero (s : String) : Int :=
  match s.data with
  | [] => 0
  | '-' :: rest =>
    if rest ≠ [] ∧ rest.all Char.isDigit then
      - (rest.foldl (fun n c => n * 10 + (c.toNat - 48)) 0 : Nat)
    else 0
  | '+' :: rest =>
    if rest ≠ [] ∧ rest.all Char.isDigit then
      (rest.foldl (fun n c => n * 10 + (c.toNat - 48)) 0 : Nat)
    else 0
  | cs =>
    if cs.all Char.isDigit then
      (cs.foldl (fun n c => n * 10 + (c.toNat - 48)) 0 : Nat)
    else 0

/-- Go `strings.SplitN(s, sep, n)` for a single-character separator and
`n > 0`: at most `n` pieces, the last piece keeps the remaining
separators. -/
def goSplitNChar (sep : Char) : Nat → List Char → List (List Char)
  | 0, _ => []
  | 1, cs => [cs]
  | n + 2, cs =>
    let pre := cs.takeWhile (· ≠ sep)
    match cs.dropWhile (· ≠ sep) with
    | [] => [pre]
    | _ :: rest => pre :: goSplitNChar sep (n + 1) rest

/-- `strings.SplitN(s, "\t", 5)` lifted to `String`. -/
def goSplitNTab5 (s : String) : List String :=
  (goSplitNChar '\t' 5 s.data).map fun cs => ⟨cs⟩

/-! ## base64 (Go `encoding/base64`)

Go's `Encoding.DecodeString` skips `\r` and `\n` anywhere in the input;
`RawURLEncoding` uses the URL alphabet with no padding, `StdEncoding`
the standard alphabet with mandatory `=` padding.  Decoding is
non-strict about unused trailing bits, as in Go's default mode. -/

/-- Value of one character in the base64 URL alphabet. -/
def b64urlVal (c : Char) : Option Nat :=
  if 'A' ≤ c ∧ c ≤ 'Z' then some (c.toNat - 65)
  else if 'a' ≤ c ∧ c ≤ 'z' then some (c.toNat - 97 + 26)
  else if '0' ≤ c ∧ c ≤ '9' then some (c.toNat - 48 + 52)
  else if c = '-' then some 62
  else if c = '_' then some 63
  else none

/-- Value of one character in the base64 standard alphabet. -/
def b64stdVal (c : Char) : Option Nat :=
  if 'A' ≤ c ∧ c ≤ 'Z' then some (c.toNat - 65)
  else if 'a' ≤ c ∧ c ≤ 'z' then some (c.toNat - 97 + 26)
  else if '0' ≤ c ∧ c ≤ '9' then some (c.toNat - 48 + 52)
  else if c = '+' then some 62
  else if c = '/' then some 63
  else none

/-- Decode an unpadded base64 character stream (Go `RawURLEncoding`):
full 4-character quanta yield 3 bytes, a 2- or 3-character remainder
yields 1 or 2 bytes, a 1-character remainder is an error. -/
def b64rawDecodeCore : List Char → Option (List Nat)
  | [] => some []
  | [_] => none
  | [a, b] => do
    let va ← b64urlVal a
    let vb ← b64urlVal b
    pure [va * 4 + vb / 16]
  | [a, b, c] => do
    let va ← b64urlVal a
    let vb ← b64urlVal b
    let vc ← b64urlVal c
    pure [va * 4 + vb / 16, (vb % 16) * 16 + vc / 4]
  | a :: b :: c :: d :: rest => do
    let va ← b64urlVal a
    let vb ← b64urlVal b
    let vc ← b64urlVal c
    let vd ← b64urlVal d
    let tail ← b64rawDecodeCore rest
    pure ([va * 4 + vb / 16, (vb % 16) * 16 + vc / 4, (vc % 4) * 64 + vd] ++ tail)

/-- Go `base64.RawURLEncoding.DecodeString`. -/
def b64urlDecode (s : String) : Option (List Nat) :=
  b64rawDecodeCore (s.data.filter fun c => c ≠ '\r' ∧ c ≠ '\n')

/-- Decode a padded base64 standard character stream
(Go `StdEncoding.DecodeString` after newline filtering). -/
def b64stdDecodeCore : List Char → Option (List Nat)
  | [] => some []
  | a :: b :: c :: d :: rest => do
    let va ← b64stdVal a
    let vb ← b64stdVal b
    if c = '=' then
      if d = '=' ∧ rest = [] then pure [va * 4 + vb / 16] else none
    else do
      let vc ← b64stdVal c
      if d = '=' then
        if rest = [] then pure [va * 4 + vb / 16, (vb % 16) * 16 + vc / 4] else none
      else do
        let vd ← b64stdVal d
        let tail ← b64stdDecodeCore rest
        pure ([va * 4 + vb / 16, (vb % 16) * 16 + vc / 4, (vc % 4) * 64 + vd] ++ tail)
  | _ => none

/-- Go `base64.StdEncoding.DecodeString`. -/
def b64stdDecode (s : String) : Option (List Nat) :=
  b64stdDecodeCore (s.data.filter fun c => c ≠ '\r' ∧ c ≠ '\n')

/-! ## The HTTPDNS query type table -/

/-- `HTTPDNSSupportType` from the source: the fixed map from type name to
DNS type code; the empty string maps to `dns.TypeA`.  A missing key is
`none` (Go's `ok = false`). -/
def HTTPDNSSupportType (t : String) : Option Nat :=
  if t = "" then some 1
  else if t = "A" then some 1
  else if t = "AAAA" then some 28
  else if t = "NS" then some 2
  else if t = "PTR" then some 12
  else if t = "TXT" then some 16
  else if t = "SOA" then some 6
  else if t = "SPF" then some 99
  else if t = "SRV" then some 33
  else if t = "MX" then some 15
  else if t = "NAPTR" then some 35
  else if t = "CNAME" then some 5
  else if t = "DNAME" then some 39
  else if t = "CAA" then some 257
  else none

/-- Go map read `HTTPDNSSupportType[k]` without the `ok` flag: a missing
key yields the zero value 0. -/
def HTTPDNSSupportTypeD (t : String) : Nat :=
  (HTTPDNSSupportType t).getD 0

/-! ## `net/netip` address parsing

Model of `netip.ParseAddr` / `netip.ParseAddrPort` as the source uses
them.  An IPv4 address is its four octets; an IPv6 address is its
sixteen bytes plus zone string. -/

/-- A parsed `netip.Addr`. -/
inductive GoAddr where
  | v4 (a b c d : Nat)
  | v6 (bytes : List Nat) (zone : String)
deriving DecidableEq, Repr

/-- Split a character list on every occurrence of `sep` (Go
`strings.Split` shape: n separators yield n+1 pieces). -/
def splitOnChar (sep : Char) : List Char → List (List Char)
  | [] => [[]]
  | c :: rest =>
    if c = sep then [] :: splitOnChar sep rest
    else
      match splitOnChar sep rest with
      | l :: ls => (c :: l) :: ls
      | [] => [[c]]

/-- One dotted-decimal IPv4 field: nonempty digits, no leading zero,
value at most 255 (the checks of netip's `parseIPv4`). -/
def v4FieldVal (cs : List Char) : Option Nat :=
  if cs ≠ [] ∧ cs.all Char.isDigit ∧ (cs.length ≤ 1 ∨ cs.head? ≠ some '0') then
    let v := cs.foldl (fun n c => n * 10 + (c.toNat - 48)) 0
    if v ≤ 255 then some v else none
  else none

/-- netip `parseIPv4`: exactly four valid dotted fields. -/
def parseIPv4 (cs : List Char) : Option GoAddr :=
  match (splitOnChar '.' cs).mapM v4FieldVal with
  | some [a, b, c, d] => some (GoAddr.v4 a b c d)
  | _ => none

/-- Hex digit value. -/
def hexVal (c : Char) : Option Nat :=
  if '0' ≤ c ∧ c ≤ '9' then some (c.toNat - 48)
  else if 'a' ≤ c ∧ c ≤ 'f' then some (c.toNat - 87)
  else if 'A' ≤ c ∧ c ≤ 'F' then some (c.toNat - 55)
  else none

/-- Scan a 16-bit hex group: accumulated value, digit count, rest.
Fails when the accumulated value exceeds 0xFFFF (netip's overflow
check). -/
def scanHexGroup : List Char → Nat → Nat → Option (Nat × Nat × List Char)
  | [], acc, n => some (acc, n, [])
  | c :: rest, acc, n =>
    match hexVal c with
    | none => some (acc, n, c :: rest)
    | some d =>
      let acc2 := acc * 16 + d
      if 65535 < acc2 then none else scanHexGroup rest acc2 (n + 1)

/-- The group-parsing loop of netip's `parseIPv6`.  State: remaining
characters, bytes accumulated so far, ellipsis byte position if seen.
Returns the accumulated bytes, the ellipsis position and the unconsumed
remainder (nonempty remainder is rejected by the caller). -/
def parseIPv6Loop : Nat → List Char → List Nat → Option Nat →
    Option (List Nat × Option Nat × List Char)
  | 0, _, _, _ => none
  | fuel + 1, s, ip, ell =>
    if 16 ≤ ip.length then some (ip, ell, s)
    else
      match scanHexGroup s 0 0 with
      | none => none
      | some (acc, n, rest) =>
        if n = 0 then none
        else if rest.head? = some '.' then
          -- Embedded IPv4 trailer: parses the whole remaining chunk,
          -- hex digits included, and ends the loop.
          if ell = none ∧ ip.length ≠ 12 then none
          else if 16 < ip.length + 4 then none
          else
            match parseIPv4 s with
            | some (GoAddr.v4 a b c d) => some (ip ++ [a, b, c, d], ell, [])
            | _ => none
        else
          let ip2 := ip ++ [acc / 256, acc % 256]
          match rest with
          | [] => some (ip2, ell, [])
          | r0 :: rtail =>
            if r0 ≠ ':' then none
            else if rtail = [] then none
            else
              if rtail.head? = some ':' then
                if ell ≠ none then none
                else
                  let s2 := rtail.drop 1
                  if s2 = [] then some (ip2, some ip2.length, [])
                  else parseIPv6Loop fuel s2 ip2 (some ip2.length)
              else parseIPv6Loop fuel rtail ip2 ell

/-- netip `parseIPv6`: zone split, leading `::`, group loop, trailing
and count checks, ellipsis expansion. -/
def parseIPv6 (inp : List Char) : Option GoAddr :=
  let s0 := inp.takeWhile (· ≠ '%')
  let zoneRest := inp.dropWhile (· ≠ '%')
  match zoneRest with
  | '%' :: [] => none
  | _ =>
    let zone : String := match zoneRest with
      | _ :: z => ⟨z⟩
      | [] => ""
    if s0.take 2 = [':', ':'] ∧ s0.length = 2 then
      some (GoAddr.v6 (List.replicate 16 0) zone)
    else
      let (s1, ell0) : List Char × Option Nat :=
        if s0.take 2 = [':', ':'] then (s0.drop 2, some 0) else (s0, none)
      match parseIPv6Loop 9 s1 [] ell0 with
      | none => none
      | some (ip, ell, rest) =>
        if rest ≠ [] then none
        else
          match ell with
          | none => if ip.length < 16 then none else some (GoAddr.v6 ip zone)
          | some e =>
            if ip.length = 16 then none
            else
              some (GoAddr.v6
                (ip.take e ++ List.replicate (16 - ip.length) 0 ++ ip.drop e) zone)

/-- Which special character appears first in the string: `1` for a dot,
`2` for a colon, `3` for a percent sign, `0` for none. -/
def addrKind : List Char → Nat
  | [] => 0
  | c :: rest =>
    if c = '.' then 1
    else if c = ':' then 2
    else if c = '%' then 3
    else addrKind rest

/-- `netip.ParseAddr`. -/
def goParseAddr (s : String) : Option GoAddr :=
  match addrKind s.data with
  | 1 => parseIPv4 s.data
  | 2 => parseIPv6 s.data
  | _ => none

/-- A parsed `netip.AddrPort`.  The zero (invalid) `netip.AddrPort{}` is
represented as `none : Option GoAddrPort` at every use site. -/
structure GoAddrPort where
  addr : GoAddr
  port : Nat
deriving DecidableEq, Repr

/-- netip `splitAddrPort`: split at the last colon, strip brackets. -/
def splitAddrPort (s : List Char) : Option (List Char × List Char × Bool) :=
  match s.reverse.dropWhile (· ≠ ':') with
  | [] => none
  | _ :: ipRev =>
    let ip := ipRev.reverse
    let port := (s.reverse.takeWhile (· ≠ ':')).reverse
    if ip = [] then none
    else if port = [] then none
    else if ip.head? = some '[' then
      if 2 ≤ ip.length ∧ ip.getLast? = some ']' then
        some ((ip.drop 1).dropLast, port, true)
      else none
    else some (ip, port, false)

/-- `strconv.ParseUint(port, 10, 16)`: nonempty decimal digits, value at
most 65535. -/
def parsePort16 (cs : List Char) : Option Nat :=
  if cs ≠ [] ∧ cs.all Char.isDigit then
    let v := cs.foldl (fun n c => n * 10 + (c.toNat - 48)) 0
    if v ≤ 65535 then some v else none
  else none

/-- `netip.ParseAddrPort`, including the bracket/family consistency
checks. -/
def goParseAddrPort (s : String) : Option GoAddrPort := do
  let (ip, port, v6) ← splitAddrPort s.data
  let p ← parsePort16 port
  let a ← goParseAddr ⟨ip⟩
  match a, v6 with
  | GoAddr.v4 _ _ _ _, true => none
  | GoAddr.v6 _ _, false => none
  | _, _ => pure ⟨a, p⟩

/-! ## DNS wire format (github.com/miekg/dns `Msg.Pack` / `Msg.Unpack`)

Modelled subset, per-definition restrictions noted:
* resource-record data is kept as raw wire bytes (RFC 3597 style) rather
  than per-type structures;
* name compression pointers are rejected by the unpacker (`Msg.Pack`
  never emits them, so packed messages always re-unpack);
* label bytes are restricted to printable ASCII that needs no
  presentation-format escaping, and the packer rejects backslashes
  instead of processing escape sequences. -/

/-- A label byte that needs no escaping in presentation format
(printable ASCII, not one of miekg's escaped characters
`.`, `\`, `(`, `)`, `;`, `@`, `"`, and not a space). -/
def plainByte (b : Nat) : Bool :=
  33 ≤ b && b ≤ 126 && b ≠ 46 && b ≠ 92 && b ≠ 40 && b ≠ 41 && b ≠ 59 && b ≠ 64 && b ≠ 34

/-- Wire encoding of a label sequence: length-prefixed labels followed
by the terminating zero byte. -/
def encodeLabels : List (List Nat) → List Nat
  | [] => [0]
  | l :: ls => (l.length :: l) ++ encodeLabels ls

/-- Parse length-prefixed labels until the zero byte.  `used` tracks the
255-octet wire budget of miekg's `UnpackDomainName` (fail as soon as the
running total, final zero byte excluded, would exceed 254).  Length
bytes above 63 — compression pointers included — are rejected.  The
budget caps recursion depth at 127, so a fuel of 128 never runs out. -/
def parseLabels : Nat → List Nat → Nat → Option (List (List Nat) × List Nat)
  | 0, _, _ => none
  | _ + 1, [], _ => none
  | fuel + 1, b :: rest, used =>
    if b = 0 then some ([], rest)
    else if 63 < b then none
    else if 254 < used + 1 + b then none
    else if b ≤ rest.length ∧ (rest.take b).all plainByte then
      match parseLabels fuel (rest.drop b) (used + 1 + b) with
      | some (labs, r) => some (rest.take b :: labs, r)
      | none => none
    else none

/-- Join labels into miekg's string form: every label is followed by a
dot, the root is the bare dot. -/
def joinLabels : List (List Char) → List Char
  | [] => []
  | l :: ls => l ++ '.' :: joinLabels ls

/-- The string form of a parsed label sequence. -/
def decodeName (labs : List (List Nat)) : String :=
  if labs = [] then "." else ⟨joinLabels (labs.map fun l => l.map Char.ofNat)⟩

/-- The label split of `packDomainName`: requires a fully qualified name
(trailing dot), rejects empty labels (leading or doubled dots), labels
longer than 63 bytes, and backslashes (escape sequences are outside the
model). -/
def nameLabs (s : String) : Option (List (List Nat)) :=
  let cs := s.data
  if cs = [] then none
  else if cs.getLast? ≠ some '.' then none
  else if cs = ['.'] then some []
  else
    let labs := (splitOnChar '.' cs).dropLast
    if labs.all fun l => !l.isEmpty && l.length ≤ 63 && l.all (· ≠ '\\') then
      some (labs.map fun l => l.map Char.toNat)
    else none

/-- miekg `packDomainName` (modelled subset). -/
def encodeName (s : String) : Option (List Nat) :=
  (nameLabs s).map encodeLabels

/-- miekg `UnpackDomainName` (modelled subset: no compression pointers,
plain label bytes only). -/
def parseName (bs : List Nat) : Option (String × List Nat) :=
  match parseLabels 128 bs 0 with
  | some (labs, rest) => some (decodeName labs, rest)
  | none => none

/-- Big-endian 16-bit value as two bytes. -/
def u16Bytes (n : Nat) : List Nat := [n / 256 % 256, n % 256]

/-- Big-endian 32-bit value as four bytes. -/
def u32Bytes (n : Nat) : List Nat :=
  [n / 16777216 % 256, n / 65536 % 256, n / 256 % 256, n % 256]

/-- Read a big-endian 16-bit value. -/
def readU16 : List Nat → Option (Nat × List Nat)
  | a :: b :: rest => some (a * 256 + b, rest)
  | _ => none

/-- Read a big-endian 32-bit value. -/
def readU32 : List Nat → Option (Nat × List Nat)
  | a :: b :: c :: d :: rest => some (((a * 256 + b) * 256 + c) * 256 + d, rest)
  | _ => none

/-- `dns.Question`. -/
structure DnsQuestion where
  name : String
  qtype : Nat
  qclass : Nat
deriving DecidableEq, Repr

/-- A resource record with raw wire data (RFC 3597 style generic
record). -/
structure DnsRR where
  name : String
  rrtype : Nat
  rclass : Nat
  ttl : Nat
  rdata : List Nat
deriving DecidableEq, Repr

/-- `dns.Msg` with the `MsgHdr` fields inlined. -/
structure DnsMsg where
  id : Nat
  response : Bool
  opcode : Nat
  authoritative : Bool
  truncated : Bool
  recursionDesired : Bool
  recursionAvailable : Bool
  zero : Bool
  authenticatedData : Bool
  checkingDisabled : Bool
  rcode : Nat
  question : List DnsQuestion
  answer : List DnsRR
  ns : List DnsRR
  extra : List DnsRR
deriving DecidableEq, Repr

/-- The all-zero query skeleton (Go zero value of `dns.Msg`). -/
def emptyMsg : DnsMsg :=
  ⟨0, false, 0, false, false, false, false, false, false, false, 0, [], [], [], []⟩

/-- Bit value of a `Bool`. -/
def boolBit (b : Bool) : Nat := if b then 1 else 0

/-- The DNS header flag word (`dh.Bits` assembly of miekg `Msg.Pack`). -/
def packFlags (m : DnsMsg) : Nat :=
  boolBit m.response * 32768 + m.opcode % 16 * 2048 + boolBit m.authoritative * 1024 +
  boolBit m.truncated * 512 + boolBit m.recursionDesired * 256 +
  boolBit m.recursionAvailable * 128 + boolBit m.zero * 64 +
  boolBit m.authenticatedData * 32 + boolBit m.checkingDisabled * 16 + m.rcode % 16

/-- Wire bytes of one question. -/
def packQuestion (q : DnsQuestion) : Option (List Nat) := do
  let n ← encodeName q.name
  pure (n ++ u16Bytes q.qtype ++ u16Bytes q.qclass)

/-- Wire bytes of one resource record (rdlength is the length of the raw
data). -/
def packRR (rr : DnsRR) : Option (List Nat) := do
  let n ← encodeName rr.name
  pure (n ++ u16Bytes rr.rrtype ++ u16Bytes rr.rclass ++ u32Bytes rr.ttl ++
        u16Bytes rr.rdata.length ++ rr.rdata)

/-- Concatenate the encodings of a section's entries, failing if any
entry fails to pack. -/
def packList (f : α → Option (List Nat)) : List α → Option (List Nat)
  | [] => some []
  | x :: xs => do
    let b ← f x
    let rest ← packList f xs
    pure (b ++ rest)

/-- miekg `Msg.Pack` (compression off, the default): header then the
four sections. -/
def packMsg (m : DnsMsg) : Option (List Nat) := do
  let qs ← packList packQuestion m.question
  let ans ← packList packRR m.answer
  let nss ← packList packRR m.ns
  let ext ← packList packRR m.extra
  pure (u16Bytes m.id ++ u16Bytes (packFlags m) ++ u16Bytes m.question.length ++
        u16Bytes m.answer.length ++ u16Bytes m.ns.length ++ u16Bytes m.extra.length ++
        qs ++ ans ++ nss ++ ext)

/-- Parse one question. -/
def parseQuestion (bs : List Nat) : Option (DnsQuestion × List Nat) := do
  let (n, r1) ← parseName bs
  let (t, r2) ← readU16 r1
  let (c, r3) ← readU16 r2
  pure (⟨n, t, c⟩, r3)

/-- Parse a counted question section. -/
def parseQuestions : Nat → List Nat → Option (List DnsQuestion × List Nat)
  | 0, bs => some ([], bs)
  | k + 1, bs => do
    let (q, r) ← parseQuestion bs
    let (qs, r2) ← parseQuestions k r
    pure (q :: qs, r2)

/-- Parse one resource record. -/
def parseRR (bs : List Nat) : Option (DnsRR × List Nat) := do
  let (n, r1) ← parseName bs
  let (t, r2) ← readU16 r1
  let (c, r3) ← readU16 r2
  let (ttl, r4) ← readU32 r3
  let (rdlen, r5) ← readU16 r4
  if rdlen ≤ r5.length then pure (⟨n, t, c, ttl, r5.take rdlen⟩, r5.drop rdlen)
  else none

/-- Parse a counted record section. -/
def parseRRs : Nat → List Nat → Option (List DnsRR × List Nat)
  | 0, bs => some ([], bs)
  | k + 1, bs => do
    let (rr, r) ← parseRR bs
    let (rrs, r2) ← parseRRs k r
    pure (rr :: rrs, r2)

/-- miekg `Msg.Unpack` (modelled subset).  Trailing bytes after the
counted sections are ignored, as miekg does.  The `bs.all (· < 256)`
guard only pins the `List Nat` representation to byte strings — every
`[]byte` the source ever feeds to `Unpack` satisfies it by
construction. -/
def unpackMsg (bs : List Nat) : Option DnsMsg :=
  if bs.all (· < 256) then do
    let (i, r1) ← readU16 bs
    let (flags, r2) ← readU16 r1
    let (qd, r3) ← readU16 r2
    let (an, r4) ← readU16 r3
    let (nsc, r5) ← readU16 r4
    let (ar, r6) ← readU16 r5
    let (qs, r7) ← parseQuestions qd r6
    let (ans, r8) ← parseRRs an r7
    let (nss, r9) ← parseRRs nsc r8
    let (ext, _) ← parseRRs ar r9
    pure { id := i
           response := flags / 32768 % 2 == 1
           opcode := flags / 2048 % 16
           authoritative := flags / 1024 % 2 == 1
           truncated := flags / 512 % 2 == 1
           recursionDesired := flags / 256 % 2 == 1
           recursionAvailable := flags / 128 % 2 == 1
           zero := flags / 64 % 2 == 1
           authenticatedData := flags / 32 % 2 == 1
           checkingDisabled := flags / 16 % 2 == 1
           rcode := flags % 16
           question := qs
           answer := ans
           ns := nss
           extra := ext }
  else none

/-! ## Presentation strings and the JSON answer
(`formatHTTPDNSMsg`, `rrsToArray`, `convertFQDN`, the `DnsResponse`
JSON struct and Go `json.Marshal`) -/

/-- `dns.TypeToString` map read with the zero value for missing keys,
modelled for the types of the HTTPDNS support table (other types are
treated as absent from the map). -/
def typeToString (t : Nat) : String :=
  if t = 1 then "A" else if t = 2 then "NS" else if t = 5 then "CNAME"
  else if t = 6 then "SOA" else if t = 12 then "PTR" else if t = 15 then "MX"
  else if t = 16 then "TXT" else if t = 28 then "AAAA" else if t = 33 then "SRV"
  else if t = 35 then "NAPTR" else if t = 39 then "DNAME" else if t = 99 then "SPF"
  else if t = 257 then "CAA" else ""

/-- `dns.Type.String()`: the map value when known, `TYPE%d` otherwise. -/
def typeFieldString (t : Nat) : String :=
  if typeToString t = "" then "TYPE" ++ toString t else typeToString t

/-- `dns.Class.String()` for the classes the model meets. -/
def classToString (c : Nat) : String :=
  if c = 1 then "IN" else "CLASS" ++ toString c

/-- Lower-case hex digit. -/
def hexDigit (n : Nat) : Char :=
  if n < 10 then Char.ofNat (48 + n) else Char.ofNat (87 + n)

/-- Two lower-case hex digits of a byte. -/
def byteHex (b : Nat) : String :=
  ⟨[hexDigit (b / 16 % 16), hexDigit (b % 16)]⟩

/-- Presentation of a record's data: dotted quad for an A record,
RFC 3597 generic form otherwise (modelled subset of miekg's per-type
`String()` bodies). -/
def rdataString (rr : DnsRR) : String :=
  if rr.rrtype = 1 ∧ rr.rdata.length = 4 then
    String.intercalate "." (rr.rdata.map fun b => toString b)
  else
    "\\# " ++ toString rr.rdata.length ++ " " ++ String.join (rr.rdata.map byteHex)

/-- `rr.String()`: the tab-separated header fields followed by the data
presentation. -/
def rrString (rr : DnsRR) : String :=
  rr.name ++ "\t" ++ toString rr.ttl ++ "\t" ++ classToString rr.rclass ++ "\t" ++
    typeFieldString rr.rrtype ++ "\t" ++ rdataString rr

/-- `rrsToArray` from the source: split each record's presentation into
five tab fields, upper-case the type field, keep only 5-field splits.
(The model's record lists carry no nil interface values, so the
source's nil skip has no counterpart.) -/
def rrsToArray (rrs : List DnsRR) : List (List String) :=
  rrs.filterMap fun rr =>
    let arr := goSplitNTab5 (rrString rr)
    if arr.length = 5 then some (arr.set 3 (goToUpper (arr.getD 3 ""))) else none

/-- JSON `Question` object of the source (field `Type` is serialized as
`type`). -/
structure JQuestion where
  name : String
  type_ : Nat
deriving DecidableEq, Repr

/-- JSON `RR` object of the source. -/
structure JRR where
  name : String
  ttl : Int
  type_ : Int
  data : String
deriving DecidableEq, Repr

/-- The source's `DnsResponse` JSON struct.  A Go slice field is `none`
when nil (marshalled as `null`) and `some l` when non-nil (marshalled as
an array, empty included). -/
structure DnsResponse where
  tc : Bool
  rd : Bool
  ra : Bool
  ad : Bool
  cd : Bool
  status : Nat
  question : Option (List JQuestion)
  answer : Option (List JRR)
deriving DecidableEq, Repr

/-- The JSON object `formatHTTPDNSMsg` marshals: the zero struct when
the message has no question, otherwise header flags, the first question,
and the type-filtered answer records (started as `make([]RR, 0)`, hence
an array even when empty). -/
def dnsResponseOf (msg : DnsMsg) : DnsResponse :=
  match msg.question with
  | [] => ⟨false, false, false, false, false, 0, none, none⟩
  | q :: _ =>
    let qType := typeToString q.qtype
    { tc := msg.truncated
      rd := msg.recursionDesired
      ra := msg.recursionAvailable
      ad := msg.authenticatedData
      cd := msg.checkingDisabled
      status := msg.rcode
      question := some [⟨q.name, q.qtype⟩]
      answer := some ((rrsToArray msg.answer).filterMap fun arr =>
        if qType = arr.getD 3 "" then
          some ⟨arr.getD 0 "", goAtoiOrZero (arr.getD 1 ""),
                (HTTPDNSSupportTypeD (goToUpper qType) : Int), arr.getD 4 ""⟩
        else none) }

/-- Go `encoding/json` string escaping (default HTML-escaping
behaviour). -/
def jsonEscapeChar (c : Char) : String :=
  if c = '"' then "\\\"" else if c = '\\' then "\\\\"
  else if c = '<' then "\\u003c" else if c = '>' then "\\u003e"
  else if c = '&' then "\\u0026"
  else if c = '\n' then "\\n" else if c = '\r' then "\\r" else if c = '\t' then "\\t"
  else if c.toNat < 32 then "\\u00" ++ byteHex c.toNat
  else ⟨[c]⟩

/-- A JSON string literal. -/
def jsonStr (s : String) : String :=
  "\"" ++ String.join (s.data.map jsonEscapeChar) ++ "\""

/-- A JSON boolean. -/
def jsonBool (b : Bool) : String := if b then "true" else "false"

/-- A JSON array. -/
def jsonArr (elems : List String) : String :=
  "[" ++ String.intercalate "," elems ++ "]"

/-- A JSON object with the given rendered fields. -/
def jsonObj (fields : List (String × String)) : String :=
  "\x7b" ++ String.intercalate "," (fields.map fun f => jsonStr f.1 ++ ":" ++ f.2) ++ "\x7d"

/-- Marshal of the nested `Question` object. -/
def marshalJQuestion (q : JQuestion) : String :=
  jsonObj [("name", jsonStr q.name), ("type", toString q.type_)]

/-- Marshal of the nested `RR` object. -/
def marshalJRR (r : JRR) : String :=
  jsonObj [("name", jsonStr r.name), ("ttl", toString r.ttl),
           ("type", toString r.type_), ("data", jsonStr r.data)]

/-- A slice-valued field: Go marshals a nil slice as `null`, a non-nil
slice as an array. -/
def jsonSliceField (f : α → String) : Option (List α) → String
  | none => "null"
  | some l => jsonArr (l.map f)

/-- `json.Marshal` of a `DnsResponse`, field order as declared in the
source struct. -/
def marshalDnsResponse (r : DnsResponse) : String :=
  jsonObj [("tc", jsonBool r.tc), ("rd", jsonBool r.rd), ("ra", jsonBool r.ra),
           ("ad", jsonBool r.ad), ("cd", jsonBool r.cd), ("status", toString r.status),
           ("question", jsonSliceField marshalJQuestion r.question),
           ("answer", jsonSliceField marshalJRR r.answer)]

/-- UTF-8 bytes of the ASCII strings produced here. -/
def strBytes (s : String) : List Nat := s.data.map Char.toNat

/-- `HttpDnsAnswerTypeDoh` from the source. -/
def HttpDnsAnswerTypeDoh : Nat := 0

/-- `HttpDnsAnswerTypeJsonAnswer` from the source. -/
def HttpDnsAnswerTypeJsonAnswer : Nat := 1

/-- `formatHTTPDNSMsg` from the source: DoH kind packs the message, JSON
kind marshals the response object (JSON marshalling itself cannot
fail). -/
def formatHTTPDNSMsg (msg : DnsMsg) (answerType : Nat) : Option (List Nat) :=
  if answerType = HttpDnsAnswerTypeDoh then packMsg msg
  else some (strBytes (marshalDnsResponse (dnsResponseOf msg)))

/-! ## The HTTP facade
(`parseHTTPArgs`, `newDoHOrHttpReq`, `realIPFromHdrs`,
`remoteAddrWithRemoteHost`, `checkBasicAuth`, `respondHTTPS`, and the
identity/trust logic of `ServeHTTP`) -/

/-- Go `strings.ToLower` (ASCII inputs). -/
def goToLower (s : String) : String :=
  ⟨s.data.map Char.toLower⟩

/-- The query parameters the handlers read through `url.Values.Get`
(first value of the key, empty string when absent). -/
structure HQuery where
  dns : String
  name : String
  type_ : String
  ip : String
deriving DecidableEq, Repr

/-- The request headers the handlers read through `Header.Get` (empty
string when absent). -/
structure HHeaders where
  cfConnectingIP : String
  trueClientIP : String
  xRealIP : String
  xForwardedFor : String
  contentType : String
  authorization : String
deriving DecidableEq, Repr

/-- An inbound `*http.Request` as the handlers observe it. -/
structure HRequest where
  method : String
  path : String
  scheme : String
  query : HQuery
  headers : HHeaders
  remoteAddr : String
  body : List Nat
deriving DecidableEq, Repr

/-- `HttpDnsUrlPathPrefix` from the source. -/
def HttpDnsUrlPathPrefix : String := "/resolve"

/-- `HttpDnsUrlPathPrefixBak` from the source. -/
def HttpDnsUrlPathPrefixBak : String := "/dns-query"

/-- The query message `parseHTTPArgs` constructs before packing: fresh
transaction id (`dns.Id()` modelled as the `freshId` parameter),
recursion desired, a single INET question for the canonicalized name
and the looked-up type. -/
def synthHTTPDNSMsg (args : HQuery) (freshId : Nat) : Option DnsMsg :=
  (HTTPDNSSupportType (goToUpper args.type_)).map fun qType =>
    let d0 := convertFQDN args.name
    let d := if hasSuffixDot d0 then d0 else d0 ++ "."
    { emptyMsg with id := freshId, recursionDesired := true,
                    question := [⟨d, qType, 1⟩] }

/-- `parseHTTPArgs` from the source: `(packed bytes or failure, remote
host override)`.  An unrecognized type returns the empty override (the
source's early `return nil, "", err`); a pack failure returns the
override with a nil buffer. -/
def parseHTTPArgs (args : HQuery) (freshId : Nat) : Option (List Nat) × String :=
  match synthHTTPDNSMsg args freshId with
  | none => (none, "")
  | some msg => (packMsg msg, args.ip)

/-- Result tuple of `newDoHOrHttpReq`. -/
structure DoHReqResult where
  req : Option DnsMsg
  statusCode : Nat
  answerType : Nat
  remoteHostStr : String
deriving DecidableEq, Repr

/-- `newDoHOrHttpReq` from the source.  GET on the two JSON paths goes
through `parseHTTPArgs`, any other GET base64url-decodes the `dns`
parameter, POST requires content type `application/dns-message` and
takes the body, any other method is 405; an empty or failed payload is
400, and the payload must unpack as a DNS message. -/
def newDoHOrHttpReq (r : HRequest) (freshId : Nat) : DoHReqResult :=
  if r.method = "GET" then
    if r.path = HttpDnsUrlPathPrefix ∨ r.path = HttpDnsUrlPathPrefixBak then
      let pa := parseHTTPArgs r.query freshId
      match pa.1 with
      | none => ⟨none, 400, HttpDnsAnswerTypeJsonAnswer, pa.2⟩
      | some buf =>
        if buf = [] then ⟨none, 400, HttpDnsAnswerTypeJsonAnswer, pa.2⟩
        else
          match unpackMsg buf with
          | none => ⟨none, 400, HttpDnsAnswerTypeJsonAnswer, pa.2⟩
          | some m => ⟨some m, 200, HttpDnsAnswerTypeJsonAnswer, pa.2⟩
    else
      match b64urlDecode r.query.dns with
      | none => ⟨none, 400, HttpDnsAnswerTypeDoh, ""⟩
      | some buf =>
        if buf = [] then ⟨none, 400, HttpDnsAnswerTypeDoh, ""⟩
        else
          match unpackMsg buf with
          | none => ⟨none, 400, HttpDnsAnswerTypeDoh, ""⟩
          | some m => ⟨some m, 200, HttpDnsAnswerTypeDoh, ""⟩
  else if r.method = "POST" then
    if r.headers.contentType ≠ "application/dns-message" then
      ⟨none, 415, HttpDnsAnswerTypeDoh, ""⟩
    else
      match unpackMsg r.body with
      | none => ⟨none, 400, HttpDnsAnswerTypeDoh, ""⟩
      | some m => ⟨some m, 200, HttpDnsAnswerTypeDoh, ""⟩
  else ⟨none, 405, HttpDnsAnswerTypeDoh, ""⟩

/-- `realIPFromHdrs` from the source: the CDN connecting-IP header, the
true-client-IP header and X-Real-IP in order, each trimmed and parsed
as a bare address; then X-Forwarded-For truncated at its first comma
when that comma is at a positive index. -/
def realIPFromHdrs (h : HHeaders) : Option GoAddr :=
  match goParseAddr (goTrimSpace h.cfConnectingIP) with
  | some ip => some ip
  | none =>
    match goParseAddr (goTrimSpace h.trueClientIP) with
    | some ip => some ip
    | none =>
      match goParseAddr (goTrimSpace h.xRealIP) with
      | some ip => some ip
      | none =>
        let xff := h.xForwardedFor.data
        let pre := xff.takeWhile (· ≠ ',')
        let xff2 := if pre ≠ xff ∧ pre ≠ [] then pre else xff
        goParseAddr (goTrimSpace ⟨xff2⟩)

/-- The baseline "host" of `remoteAddrWithRemoteHost`: the parsed peer
address, replaced by the `ip`-override when the override is nonempty
and parses (`none` when the peer itself does not parse, the error
return). -/
def resolvedHost (r : HRequest) (remoteHostStr : String) : Option GoAddrPort :=
  match goParseAddrPort r.remoteAddr with
  | none => none
  | some host0 =>
    if remoteHostStr ≠ "" then some ((goParseAddrPort remoteHostStr).getD host0)
    else some host0

/-- Result triple of `remoteAddrWithRemoteHost` (`isErr` is the error
return; the zero `netip.AddrPort{}` values are `none`). -/
structure RemoteAddrResult where
  addr : Option GoAddrPort
  prx : Option GoAddrPort
  isErr : Bool
deriving DecidableEq, Repr

/-- `remoteAddrWithRemoteHost` from the source: on header success the
real IP (port 0) plus the host as proxy, otherwise the host alone. -/
def remoteAddrWithRemoteHost (r : HRequest) (remoteHostStr : String) : RemoteAddrResult :=
  match resolvedHost r remoteHostStr with
  | none => ⟨none, none, true⟩
  | some host =>
    match realIPFromHdrs r.headers with
    | none => ⟨some host, none, false⟩
    | some realIP => ⟨some ⟨realIP, 0⟩, some host, false⟩

/-- Go `strings.EqualFold` (ASCII inputs). -/
def goEqualFold (a b : List Char) : Bool :=
  a.map Char.toLower = b.map Char.toLower

/-- `http.Request.BasicAuth`: case-insensitive `Basic ` prefix,
standard base64, split at the first colon. -/
def parseBasicAuth (auth : String) : Option (String × String) :=
  let cs := auth.data
  if cs.length < 6 then none
  else if ¬ goEqualFold (cs.take 6) "Basic ".data then none
  else
    match b64stdDecode ⟨cs.drop 6⟩ with
    | none => none
    | some bytes =>
      let s := bytes.map Char.ofNat
      match s.dropWhile (· ≠ ':') with
      | [] => none
      | _ :: pass => some (⟨s.takeWhile (· ≠ ':')⟩, ⟨pass⟩)

/-- `matchesUserinfo` from the source: exact equality of both
components (a configured userinfo without password compares against the
empty string). -/
def matchesUserinfo (ui : String × String) (user pass : String) : Bool :=
  user = ui.1 && pass = ui.2

/-- What `checkBasicAuth` does to the response writer plus its
`shouldHandle` return. -/
structure AuthOutcome where
  shouldHandle : Bool
  wwwAuthenticate : Option String
  status : Option Nat
deriving DecidableEq, Repr

/-- `checkBasicAuth` from the source.  The `ok` flag of `BasicAuth` is
discarded (`user, pass, _ :=`), so a missing or malformed header
presents the empty username and password. -/
def checkBasicAuth (userinfo : Option (String × String)) (r : HRequest) : AuthOutcome :=
  match userinfo with
  | none => ⟨true, none, none⟩
  | some ui =>
    let bp := (parseBasicAuth r.headers.authorization).getD ("", "")
    if matchesUserinfo ui bp.1 bp.2 then ⟨true, none, none⟩
    else ⟨false, some "Basic realm=\"DNS\", charset=\"UTF-8\"", some 401⟩

/-- `ProtoHTTP` / `ProtoHTTPS` as `respondHTTPS` distinguishes them. -/
inductive Proto where
  | http
  | https
deriving DecidableEq, Repr

/-- The `DNSContext` fields this core reads and writes. -/
structure DNSContext where
  proto : Proto
  req : DnsMsg
  res : Option DnsMsg
  answerType : Nat
  addr : Option GoAddrPort
  preAddr : Option GoAddrPort
  xForwardedFor : String
deriving DecidableEq, Repr

/-- What `respondHTTPS` writes: a 500 for an absent answer, a 500 for a
packing failure (the error is returned to the caller), or the response
body with its headers. -/
inductive RespondResult where
  | absent
  | packFailed
  | written (server : Option String) (contentType : String) (body : List Nat)
deriving DecidableEq, Repr

/-- `respondHTTPS` from the source: the body comes from
`formatHTTPDNSMsg` when `d.Proto == ProtoHTTP` and from `resp.Pack()`
otherwise; the content type depends only on `d.AnswerType`; the
`Server` header is set when a server name is configured. -/
def respondHTTPS (serverName : String) (d : DNSContext) : RespondResult :=
  match d.res with
  | none => .absent
  | some resp =>
    let bytes? := if d.proto = Proto.http then formatHTTPDNSMsg resp d.answerType
                  else packMsg resp
    match bytes? with
    | none => .packFailed
    | some bytes =>
      .written (if serverName ≠ "" then some serverName else none)
        (if d.answerType = HttpDnsAnswerTypeDoh then "application/dns-message"
         else "application/json")
        bytes

/-- The protocol tag `ServeHTTP` assigns from the URL scheme. -/
def protoOfRequest (r : HRequest) : Proto :=
  if goToLower r.scheme = "https" then Proto.https else Proto.http

/-- Outcome of `ServeHTTP` up to the external resolution call: an early
HTTP error response, or the `DNSContext` handed to
`handleDNSRequest`. -/
inductive ServeOutcome where
  | early (status : Nat) (wwwAuthenticate : Option String)
  | handled (d : DNSContext)
deriving DecidableEq, Repr

/-- The decode → identity → auth → trust-adjustment pipeline of
`ServeHTTP` (the error of `remoteAddrWithRemoteHost` is only logged).
An untrusted proxy replaces the header-derived address by the proxy
address itself; `PreAddr` is the proxy address when one was detected,
else the effective address. -/
def serveHTTP (trusted : List GoAddr) (userinfo : Option (String × String))
    (r : HRequest) (freshId : Nat) : ServeOutcome :=
  let dec := newDoHOrHttpReq r freshId
  match dec.req with
  | none => .early dec.statusCode none
  | some req =>
    let ra := remoteAddrWithRemoteHost r dec.remoteHostStr
    let auth := checkBasicAuth userinfo r
    if ¬ auth.shouldHandle then .early 401 auth.wwwAuthenticate
    else
      let raddr := match ra.prx with
        | some p => if ¬ trusted.contains p.addr then some p else ra.addr
        | none => ra.addr
      .handled { proto := protoOfRequest r, req := req, res := none,
                 answerType := dec.answerType, addr := raddr,
                 preAddr := match ra.prx with | some p => some p | none => raddr,
                 xForwardedFor := r.headers.xForwardedFor }

/-! ## Round-trip lemmas for the wire format -/

theorem plainByte_lt {b : Nat} (h : plainByte b = true) : b < 256 := by
  simp only [plainByte, Bool.and_eq_true, decide_eq_true_eq] at h
  omega

theorem u16Bytes_mem {n x : Nat} (h : x ∈ u16Bytes n) : x < 256 := by
  simp only [u16Bytes, List.mem_cons, List.not_mem_nil, or_false] at h
  rcases h with h | h <;> omega

theorem u32Bytes_mem {n x : Nat} (h : x ∈ u32Bytes n) : x < 256 := by
  simp only [u32Bytes, List.mem_cons, List.not_mem_nil, or_false] at h
  rcases h with h | h | h | h <;> omega

theorem readU16_u16Bytes {n : Nat} (h : n < 65536) (rest : List Nat) :
    readU16 (u16Bytes n ++ rest) = some (n, rest) := by
  simp only [u16Bytes, List.cons_append, List.nil_append, readU16]
  congr 1
  congr 1
  omega

theorem readU32_u32Bytes {n : Nat} (h : n < 4294967296) (rest : List Nat) :
    readU32 (u32Bytes n ++ rest) = some (n, rest) := by
  simp only [u32Bytes, List.cons_append, List.nil_append, readU32]
  congr 1
  congr 1
  omega

/-- The invariant `parseLabels` maintains for an accepted label list
starting at budget position `used`. -/
def wfLabels : List (List Nat) → Nat → Prop
  | [], _ => True
  | l :: ls, used =>
      0 < l.length ∧ l.length ≤ 63 ∧ used + 1 + l.length ≤ 254 ∧
      (∀ b ∈ l, plainByte b = true) ∧ wfLabels ls (used + 1 + l.length)

theorem wfLabels_length_le : ∀ (labs : List (List Nat)) (used : Nat),
    wfLabels labs used → labs = [] ∨ 2 * labs.length + used ≤ 255 := by
  intro labs
  induction labs with
  | nil => intro used _; exact Or.inl rfl
  | cons l ls ih =>
    intro used h
    obtain ⟨h1, _, h3, _, h5⟩ := h
    rcases ih _ h5 with h6 | h6
    · subst h6; right; simp only [List.length_cons, List.length_nil]; omega
    · right; simp only [List.length_cons]; omega

theorem wfLabels_length_lt {labs : List (List Nat)} {used : Nat}
    (h : wfLabels labs used) : labs.length < 128 := by
  rcases wfLabels_length_le labs used h with h1 | h1
  · subst h1; simp
  · omega

theorem wfLabels_forall : ∀ (labs : List (List Nat)) (used : Nat), wfLabels labs used →
    ∀ l ∈ labs, l ≠ [] ∧ l.length ≤ 63 ∧ ∀ b ∈ l, plainByte b = true := by
  intro labs
  induction labs with
  | nil => intro used _ l hl; simp at hl
  | cons x xs ih =>
    intro used h l hl
    obtain ⟨h1, h2, _, h4, h5⟩ := h
    rcases List.mem_cons.mp hl with rfl | hl
    · exact ⟨by intro hc; simp [hc] at h1, h2, h4⟩
    · exact ih _ h5 l hl

theorem parseLabels_encode : ∀ (labs : List (List Nat)) (fuel used : Nat)
    (rest : List Nat), wfLabels labs used → labs.length < fuel →
    parseLabels fuel (encodeLabels labs ++ rest) used = some (labs, rest) := by
  intro labs
  induction labs with
  | nil =>
    intro fuel used rest _ hf
    match fuel, hf with
    | f + 1, _ => simp [encodeLabels, parseLabels]
  | cons l ls ih =>
    intro fuel used rest hwf hf
    obtain ⟨h1, h2, h3, h4, h5⟩ := hwf
    match fuel, hf with
    | f + 1, hf =>
      have hlen : l.length ≠ 0 := by omega
      have hle : ¬ 63 < l.length := by omega
      have hbud : ¬ 254 < used + 1 + l.length := by omega
      have harg : encodeLabels (l :: ls) ++ rest =
          l.length :: (l ++ (encodeLabels ls ++ rest)) := by
        simp [encodeLabels]
      rw [harg]
      have hcond : l.length ≤ (l ++ (encodeLabels ls ++ rest)).length ∧
          ((l ++ (encodeLabels ls ++ rest)).take l.length).all plainByte = true := by
        constructor
        · simp only [List.length_append]; omega
        · rw [List.take_left]
          exact List.all_eq_true.mpr h4
      simp only [parseLabels, hlen, if_false, hle, hbud, if_pos hcond,
        List.take_left, List.drop_left]
      rw [ih f (used + 1 + l.length) rest h5 (by simp only [List.length_cons] at hf; omega)]
      have hcond2 : l.length ≤ (l ++ (encodeLabels ls ++ rest)).length ∧
          l.all plainByte = true :=
        ⟨by simp only [List.length_append]; omega, List.all_eq_true.mpr h4⟩
      rw [if_pos hcond2]

theorem parseLabels_sound : ∀ (fuel : Nat) (bs : List Nat) (used : Nat)
    (labs : List (List Nat)) (rest : List Nat),
    parseLabels fuel bs used = some (labs, rest) →
    wfLabels labs used ∧ encodeLabels labs ++ rest = bs := by
  intro fuel
  induction fuel with
  | zero => intro bs used labs rest h; simp [parseLabels] at h
  | succ f ih =>
    intro bs used labs rest h
    match bs with
    | [] => simp [parseLabels] at h
    | b :: bs' =>
      simp only [parseLabels] at h
      by_cases hb : b = 0
      · simp only [hb, if_true, Option.some.injEq, Prod.mk.injEq] at h
        obtain ⟨rfl, rfl⟩ := h
        exact ⟨trivial, by simp [encodeLabels, hb]⟩
      · simp only [hb, if_false] at h
        by_cases h63 : 63 < b
        · simp [h63] at h
        · simp only [h63, if_false] at h
          by_cases hbud : 254 < used + 1 + b
          · simp [hbud] at h
          · simp only [hbud, if_false] at h
            by_cases hcond : b ≤ bs'.length ∧ (bs'.take b).all plainByte = true
            · rw [if_pos hcond] at h
              cases hrec : parseLabels f (bs'.drop b) (used + 1 + b) with
              | none => rw [hrec] at h; simp at h
              | some p =>
                obtain ⟨labs', r'⟩ := p
                rw [hrec] at h
                simp only [Option.some.injEq, Prod.mk.injEq] at h
                obtain ⟨rfl, rfl⟩ := h
                obtain ⟨hwf, henc⟩ := ih _ _ _ _ hrec
                have htl : (bs'.take b).length = b := by
                  rw [List.length_take]; omega
                have hwf' : wfLabels (bs'.take b :: labs') used := by
                  simp only [wfLabels, htl]
                  exact ⟨by omega, by omega, by omega,
                    fun x hx => List.all_eq_true.mp hcond.2 x hx, hwf⟩
                refine ⟨hwf', ?_⟩
                simp only [encodeLabels, htl, List.cons_append, List.append_assoc, henc,
                  List.take_append_drop]
            · rw [if_neg hcond] at h
              simp at h

theorem char_toNat_ofNat {b : Nat} (h : b < 256) : (Char.ofNat b).toNat = b := by
  unfold Char.ofNat
  split
  · rfl
  · omega

theorem char_ofNat_ne_of_plain {b : Nat} (hp : plainByte b = true) {c : Char}
    (hne : b ≠ c.toNat) : Char.ofNat b ≠ c := by
  intro he
  have hb := plainByte_lt hp
  have := char_toNat_ofNat hb
  rw [he] at this
  exact hne this.symm

theorem plain_ne_dot {b : Nat} (hp : plainByte b = true) : Char.ofNat b ≠ '.' := by
  refine char_ofNat_ne_of_plain hp ?_
  have h46 : ('.' : Char).toNat = 46 := rfl
  rw [h46]
  simp only [plainByte, Bool.and_eq_true, decide_eq_true_eq] at hp
  omega

theorem plain_ne_backslash {b : Nat} (hp : plainByte b = true) :
    Char.ofNat b ≠ '\\' := by
  refine char_ofNat_ne_of_plain hp ?_
  have h92 : ('\\' : Char).toNat = 92 := rfl
  rw [h92]
  simp only [plainByte, Bool.and_eq_true, decide_eq_true_eq] at hp
  omega

theorem splitOnChar_append {sep : Char} : ∀ (l : List Char), sep ∉ l → ∀ rest,
    splitOnChar sep (l ++ sep :: rest) = l :: splitOnChar sep rest := by
  intro l
  induction l with
  | nil => intro _ rest; simp [splitOnChar]
  | cons c cs ih =>
    intro hmem rest
    have hc : ¬ c = sep := fun h => hmem (h ▸ List.mem_cons_self c cs)
    have hcs : sep ∉ cs := fun h => hmem (List.mem_cons_of_mem c h)
    simp only [List.cons_append, splitOnChar, hc, if_false, List.append_eq, ih hcs rest]

theorem splitOnChar_join : ∀ (ls : List (List Char)), (∀ l ∈ ls, '.' ∉ l) →
    splitOnChar '.' (joinLabels ls) = ls ++ [[]] := by
  intro ls
  induction ls with
  | nil => intro _; simp [joinLabels, splitOnChar]
  | cons l ls ih =>
    intro h
    simp only [joinLabels, splitOnChar_append l (h l (List.mem_cons_self l ls)),
      ih fun x hx => h x (List.mem_cons_of_mem l hx), List.cons_append]

theorem joinLabels_length : ∀ (ls : List (List Char)),
    (joinLabels ls).length = (ls.map List.length).sum + ls.length := by
  intro ls
  induction ls with
  | nil => simp [joinLabels]
  | cons l ls ih => simp [joinLabels, ih]; omega

theorem joinLabels_ne_nil (l : List Char) (ls : List (List Char)) :
    joinLabels (l :: ls) ≠ [] := by
  simp [joinLabels]

theorem joinLabels_getLast : ∀ (ls : List (List Char)), ls ≠ [] →
    (joinLabels ls).getLast? = some '.' := by
  intro ls
  induction ls with
  | nil => intro h; exact absurd rfl h
  | cons l ls ih =>
    intro _
    show (l ++ '.' :: joinLabels ls).getLast? = some '.'
    rw [List.getLast?_append_of_ne_nil _ (by simp)]
    cases hls : ls with
    | nil => simp [joinLabels]
    | cons m ms =>
      rw [hls] at ih
      have hstep : ('.' :: joinLabels (m :: ms)).getLast? =
          (joinLabels (m :: ms)).getLast? := by
        rw [show ('.' :: joinLabels (m :: ms)) = ['.'] ++ joinLabels (m :: ms) from rfl,
          List.getLast?_append_of_ne_nil _ (joinLabels_ne_nil m ms)]
      rw [hstep]
      exact ih (by simp)

theorem nameLabs_decodeName (labs : List (List Nat))
    (h : ∀ l ∈ labs, l ≠ [] ∧ l.length ≤ 63 ∧ ∀ b ∈ l, plainByte b = true) :
    nameLabs (decodeName labs) = some labs := by
  cases labs with
  | nil => decide
  | cons l ls =>
    obtain ⟨hl1, hl2, hl3⟩ := h l (List.mem_cons_self l ls)
    obtain ⟨b0, bs0, rfl⟩ : ∃ b bs, l = b :: bs := by
      cases l with
      | nil => exact absurd rfl hl1
      | cons x xs => exact ⟨x, xs, rfl⟩
    set mls := ((b0 :: bs0) :: ls).map fun x => x.map Char.ofNat with hmls
    have hdot : ∀ ll ∈ mls, '.' ∉ ll := by
      intro ll hll hdotmem
      obtain ⟨x, hx, rfl⟩ := List.mem_map.mp hll
      obtain ⟨b, hb, hbe⟩ := List.mem_map.mp hdotmem
      exact plain_ne_dot ((h x hx).2.2 b hb) hbe
    have hjoin : joinLabels mls =
        Char.ofNat b0 :: (bs0.map Char.ofNat ++ '.' :: joinLabels (ls.map fun x => x.map Char.ofNat)) := by
      simp [hmls, joinLabels]
    have hdata : (decodeName ((b0 :: bs0) :: ls)).data = joinLabels mls := by
      simp [decodeName, hmls]
    have hne : joinLabels mls ≠ [] := by rw [hjoin]; simp
    have hlast : (joinLabels mls).getLast? = some '.' :=
      joinLabels_getLast _ (by simp [hmls])
    have hb0 : Char.ofNat b0 ≠ '.' := plain_ne_dot (hl3 b0 (List.mem_cons_self b0 bs0))
    have hnotdot : joinLabels mls ≠ ['.'] := by
      rw [hjoin]
      intro hc
      rw [List.cons.injEq] at hc
      exact hb0 hc.1
    unfold nameLabs
    rw [hdata, if_neg hne, if_neg (by simp [hlast]), if_neg hnotdot]
    rw [splitOnChar_join _ hdot, List.dropLast_concat]
    have hall : mls.all
        (fun l => !l.isEmpty && l.length ≤ 63 && l.all (· ≠ '\\')) = true := by
      rw [List.all_eq_true]
      intro x hx
      rw [hmls] at hx
      obtain ⟨y, hy, rfl⟩ := List.mem_map.mp hx
      obtain ⟨hy1, hy2, hy3⟩ := h y hy
      simp only [Bool.and_eq_true, List.all_eq_true, decide_eq_true_eq]
      refine ⟨⟨?_, ?_⟩, ?_⟩
      · cases hyc : y with
        | nil => exact absurd hyc hy1
        | cons a as => simp
      · simpa using hy2
      · intro c hc
        obtain ⟨b, hb, rfl⟩ := List.mem_map.mp hc
        exact plain_ne_backslash (hy3 b hb)
    rw [if_pos hall]
    congr 1
    rw [hmls, List.map_map]
    conv_rhs => rw [← List.map_id ((b0 :: bs0) :: ls)]
    apply List.map_congr_left
    intro x hx
    simp only [Function.comp_apply, List.map_map, id_eq]
    conv_rhs => rw [← List.map_id x]
    apply List.map_congr_left
    intro b hb
    simp only [Function.comp_apply, id_eq]
    exact char_toNat_ofNat (plainByte_lt ((h x hx).2.2 b hb))

/-- A name that arose from an accepted parse: well-formed labels, same
string form. -/
def nameRT (s : String) : Prop :=
  ∃ labs, wfLabels labs 0 ∧ decodeName labs = s

theorem encodeName_of_wf {labs : List (List Nat)} (hwf : wfLabels labs 0) :
    encodeName (decodeName labs) = some (encodeLabels labs) := by
  unfold encodeName
  rw [nameLabs_decodeName labs (wfLabels_forall _ _ hwf)]
  rfl

theorem parseName_encode {labs : List (List Nat)} (hwf : wfLabels labs 0)
    (rest : List Nat) :
    parseName (encodeLabels labs ++ rest) = some (decodeName labs, rest) := by
  unfold parseName
  rw [parseLabels_encode labs 128 0 rest hwf (wfLabels_length_lt hwf)]

theorem parseName_sound {bs : List Nat} {s : String} {rest : List Nat}
    (h : parseName bs = some (s, rest)) :
    ∃ labs, wfLabels labs 0 ∧ s = decodeName labs ∧
      encodeName s = some (encodeLabels labs) ∧ encodeLabels labs ++ rest = bs := by
  unfold parseName at h
  cases hp : parseLabels 128 bs 0 with
  | none => rw [hp] at h; simp at h
  | some p =>
    obtain ⟨labs, r⟩ := p
    rw [hp] at h
    simp only [Option.some.injEq, Prod.mk.injEq] at h
    obtain ⟨rfl, rfl⟩ := h
    obtain ⟨hwf, henc⟩ := parseLabels_sound 128 bs 0 labs r hp
    exact ⟨labs, hwf, rfl, encodeName_of_wf hwf, henc⟩

theorem u16Bytes_of_bytes {a b : Nat} (ha : a < 256) (hb : b < 256) :
    u16Bytes (a * 256 + b) = [a, b] := by
  simp only [u16Bytes, List.cons.injEq, and_true]
  constructor
  · omega
  · omega

theorem u32Bytes_of_bytes {a b c d : Nat} (ha : a < 256) (hb : b < 256)
    (hc : c < 256) (hd : d < 256) :
    u32Bytes (((a * 256 + b) * 256 + c) * 256 + d) = [a, b, c, d] := by
  simp only [u32Bytes, List.cons.injEq, and_true]
  refine ⟨?_, ?_, ?_, ?_⟩ <;> omega

theorem encodeLabels_mem : ∀ (labs : List (List Nat)) (used : Nat),
    wfLabels labs used → ∀ x ∈ encodeLabels labs, x < 256 := by
  intro labs
  induction labs with
  | nil =>
    intro used _ x hx
    simp only [encodeLabels, List.mem_singleton] at hx
    omega
  | cons l ls ih =>
    intro used hwf x hx
    obtain ⟨_, h2, _, h4, h5⟩ := hwf
    simp only [encodeLabels, List.cons_append, List.mem_cons, List.mem_append] at hx
    rcases hx with rfl | hx | hx
    · omega
    · exact plainByte_lt (h4 x hx)
    · exact ih _ h5 x hx

/-- The invariant of an accepted question. -/
def wfQuestion (q : DnsQuestion) : Prop :=
  nameRT q.name ∧ q.qtype < 65536 ∧ q.qclass < 65536

/-- The invariant of an accepted resource record. -/
def wfRR (rr : DnsRR) : Prop :=
  nameRT rr.name ∧ rr.rrtype < 65536 ∧ rr.rclass < 65536 ∧ rr.ttl < 4294967296 ∧
    rr.rdata.length < 65536 ∧ ∀ b ∈ rr.rdata, b < 256

theorem parseQuestion_sound {bs : List Nat} {q : DnsQuestion} {rest : List Nat}
    (hbytes : ∀ x ∈ bs, x < 256) (h : parseQuestion bs = some (q, rest)) :
    ∃ qb, packQuestion q = some qb ∧ qb ++ rest = bs ∧ wfQuestion q := by
  simp only [parseQuestion, Option.bind_eq_bind, Option.bind_eq_some, Option.pure_def,
    Option.some.injEq, Prod.mk.injEq] at h
  obtain ⟨⟨n, r1⟩, hn, ⟨t, r2⟩, ht, ⟨c, r3⟩, hc, hqe, hre⟩ := h
  subst hre
  subst hqe
  obtain ⟨labs, hwf, hsn, henc, hb⟩ := parseName_sound hn
  obtain ⟨a1, a2, rfl, rfl⟩ : ∃ a1 a2, r1 = a1 :: a2 :: r2 ∧ t = a1 * 256 + a2 := by
    cases r1 with
    | nil => simp [readU16] at ht
    | cons x xs =>
      cases xs with
      | nil => simp [readU16] at ht
      | cons y ys =>
        simp only [readU16, Option.some.injEq, Prod.mk.injEq] at ht
        exact ⟨x, y, by rw [ht.2], ht.1.symm⟩
  obtain ⟨b1, b2, rfl, rfl⟩ : ∃ b1 b2, r2 = b1 :: b2 :: r3 ∧ c = b1 * 256 + b2 := by
    cases r2 with
    | nil => simp [readU16] at hc
    | cons x xs =>
      cases xs with
      | nil => simp [readU16] at hc
      | cons y ys =>
        simp only [readU16, Option.some.injEq, Prod.mk.injEq] at hc
        exact ⟨x, y, by rw [hc.2], hc.1.symm⟩
  have hmem : ∀ x ∈ [a1, a2, b1, b2], x < 256 := by
    intro x hx
    apply hbytes
    rw [← hb]
    simp only [List.mem_cons, List.not_mem_nil, or_false] at hx
    rcases hx with rfl | rfl | rfl | rfl <;>
      simp [List.mem_append, List.mem_cons]
  have ha1 := hmem a1 (by simp)
  have ha2 := hmem a2 (by simp)
  have hb1 := hmem b1 (by simp)
  have hb2 := hmem b2 (by simp)
  refine ⟨encodeLabels labs ++ [a1, a2] ++ [b1, b2], ?_, ?_, ?_⟩
  · rw [packQuestion, henc]
    simp only [Option.bind_eq_bind, Option.some_bind, Option.pure_def, Option.some.injEq,
      u16Bytes_of_bytes ha1 ha2, u16Bytes_of_bytes hb1 hb2]
  · rw [← hb]
    simp [List.append_assoc]
  · exact ⟨⟨labs, hwf, hsn.symm⟩, by dsimp only; omega, by dsimp only; omega⟩

theorem parseQuestion_pack {q : DnsQuestion} {qb : List Nat}
    (hq : wfQuestion q) (hpk : packQuestion q = some qb) (rest : List Nat) :
    parseQuestion (qb ++ rest) = some (q, rest) := by
  obtain ⟨⟨labs, hwf, hname⟩, ht, hc⟩ := hq
  obtain ⟨qn, qt, qc⟩ := q
  simp only at hname ht hc
  subst hname
  rw [packQuestion] at hpk
  rw [encodeName_of_wf hwf] at hpk
  simp only [Option.bind_eq_bind, Option.some_bind, Option.pure_def,
    Option.some.injEq] at hpk
  subst hpk
  simp only [parseQuestion, Option.bind_eq_bind, List.append_assoc]
  rw [parseName_encode hwf]
  simp only [Option.some_bind]
  rw [readU16_u16Bytes ht, Option.some_bind, readU16_u16Bytes hc]
  rfl

theorem parseRR_sound {bs : List Nat} {rr : DnsRR} {rest : List Nat}
    (hbytes : ∀ x ∈ bs, x < 256) (h : parseRR bs = some (rr, rest)) :
    ∃ rb, packRR rr = some rb ∧ rb ++ rest = bs ∧ wfRR rr := by
  simp only [parseRR, Option.bind_eq_bind, Option.bind_eq_some, Option.pure_def] at h
  obtain ⟨⟨n, r1⟩, hn, ⟨t, r2⟩, ht, ⟨c, r3⟩, hc, ⟨ttl, r4⟩, httl, ⟨rdlen, r5⟩, hrdlen, hfin⟩ := h
  by_cases hle : rdlen ≤ r5.length
  swap
  · rw [if_neg hle] at hfin; simp at hfin
  rw [if_pos hle] at hfin
  simp only [Option.some.injEq, Prod.mk.injEq] at hfin
  obtain ⟨hrr, hrest⟩ := hfin
  subst hrest
  obtain ⟨labs, hwf, hsn, henc, hb⟩ := parseName_sound hn
  obtain ⟨a1, a2, rfl, rfl⟩ : ∃ a1 a2, r1 = a1 :: a2 :: r2 ∧ t = a1 * 256 + a2 := by
    cases r1 with
    | nil => simp [readU16] at ht
    | cons x xs =>
      cases xs with
      | nil => simp [readU16] at ht
      | cons y ys =>
        simp only [readU16, Option.some.injEq, Prod.mk.injEq] at ht
        exact ⟨x, y, by rw [ht.2], ht.1.symm⟩
  obtain ⟨b1, b2, rfl, rfl⟩ : ∃ b1 b2, r2 = b1 :: b2 :: r3 ∧ c = b1 * 256 + b2 := by
    cases r2 with
    | nil => simp [readU16] at hc
    | cons x xs =>
      cases xs with
      | nil => simp [readU16] at hc
      | cons y ys =>
        simp only [readU16, Option.some.injEq, Prod.mk.injEq] at hc
        exact ⟨x, y, by rw [hc.2], hc.1.symm⟩
  obtain ⟨c1, c2, c3, c4, rfl, rfl⟩ : ∃ c1 c2 c3 c4, r3 = c1 :: c2 :: c3 :: c4 :: r4 ∧
      ttl = ((c1 * 256 + c2) * 256 + c3) * 256 + c4 := by
    match r3, httl with
    | x1 :: x2 :: x3 :: x4 :: xs, httl =>
      simp only [readU32, Option.some.injEq, Prod.mk.injEq] at httl
      exact ⟨x1, x2, x3, x4, by rw [httl.2], httl.1.symm⟩
  obtain ⟨d1, d2, rfl, rfl⟩ : ∃ d1 d2, r4 = d1 :: d2 :: r5 ∧ rdlen = d1 * 256 + d2 := by
    cases r4 with
    | nil => simp [readU16] at hrdlen
    | cons x xs =>
      cases xs with
      | nil => simp [readU16] at hrdlen
      | cons y ys =>
        simp only [readU16, Option.some.injEq, Prod.mk.injEq] at hrdlen
        exact ⟨x, y, by rw [hrdlen.2], hrdlen.1.symm⟩
  have hsub : ∀ x ∈ ([a1, a2, b1, b2] ++ [c1, c2, c3, c4] ++ [d1, d2] : List Nat) ++ r5,
      x < 256 := by
    intro x hx
    apply hbytes
    rw [← hb]
    refine List.mem_append_right _ ?_
    simp only [List.mem_cons, List.mem_append, List.not_mem_nil, or_false] at hx ⊢
    tauto
  have ha1 := hsub a1 (by simp)
  have ha2 := hsub a2 (by simp)
  have hb1 := hsub b1 (by simp)
  have hb2 := hsub b2 (by simp)
  have hc1 := hsub c1 (by simp)
  have hc2 := hsub c2 (by simp)
  have hc3 := hsub c3 (by simp)
  have hc4 := hsub c4 (by simp)
  have hd1 := hsub d1 (by simp)
  have hd2 := hsub d2 (by simp)
  have hr5 : ∀ x ∈ r5, x < 256 := by
    intro x hx
    exact hsub x (List.mem_append_right _ hx)
  have hrdmem : ∀ x ∈ r5.take (d1 * 256 + d2), x < 256 :=
    fun x hx => hr5 x (List.mem_of_mem_take hx)
  have hlen : (r5.take (d1 * 256 + d2)).length = d1 * 256 + d2 := by
    rw [List.length_take]; omega
  subst hrr
  refine ⟨encodeLabels labs ++ [a1, a2] ++ [b1, b2] ++ [c1, c2, c3, c4] ++ [d1, d2] ++
    r5.take (d1 * 256 + d2), ?_, ?_, ?_⟩
  · simp only [packRR, Option.bind_eq_bind, henc, Option.some_bind, Option.some.injEq,
      u16Bytes_of_bytes ha1 ha2, u16Bytes_of_bytes hb1 hb2,
      u32Bytes_of_bytes hc1 hc2 hc3 hc4, hlen, u16Bytes_of_bytes hd1 hd2]
    simp [List.append_assoc]
  · rw [← hb]
    simp only [List.append_assoc, List.cons_append, List.nil_append, List.cons.injEq,
      true_and]
    rw [List.take_append_drop]
  · refine ⟨⟨labs, hwf, hsn.symm⟩, by dsimp only; omega, by dsimp only; omega,
      by dsimp only; omega, by dsimp only; rw [hlen]; omega, by dsimp only; exact hrdmem⟩

theorem parseRR_pack {rr : DnsRR} {rb : List Nat}
    (hq : wfRR rr) (hpk : packRR rr = some rb) (rest : List Nat) :
    parseRR (rb ++ rest) = some (rr, rest) := by
  obtain ⟨⟨labs, hwf, hname⟩, ht, hc, httl, hlen, hmem⟩ := hq
  obtain ⟨rn, rt, rc, rttl, rdata⟩ := rr
  simp only at hname ht hc httl hlen hmem
  subst hname
  rw [packRR] at hpk
  rw [encodeName_of_wf hwf] at hpk
  simp only [Option.bind_eq_bind, Option.some_bind, Option.pure_def,
    Option.some.injEq] at hpk
  subst hpk
  simp only [parseRR, Option.bind_eq_bind, List.append_assoc]
  rw [parseName_encode hwf]
  simp only [Option.some_bind]
  rw [readU16_u16Bytes ht, Option.some_bind, readU16_u16Bytes hc, Option.some_bind,
    readU32_u32Bytes httl, Option.some_bind, readU16_u16Bytes hlen, Option.some_bind]
  rw [if_pos (by simp [List.length_append])]
  rw [List.take_left, List.drop_left]
  rfl

theorem parseQuestions_sound : ∀ (k : Nat) (bs : List Nat) (qs : List DnsQuestion)
    (rest : List Nat), (∀ x ∈ bs, x < 256) → parseQuestions k bs = some (qs, rest) →
    qs.length = k ∧ ∃ body, packList packQuestion qs = some body ∧ body ++ rest = bs ∧
      ∀ q ∈ qs, wfQuestion q := by
  intro k
  induction k with
  | zero =>
    intro bs qs rest _ h
    simp only [parseQuestions, Option.some.injEq, Prod.mk.injEq] at h
    obtain ⟨rfl, rfl⟩ := h
    exact ⟨rfl, [], rfl, rfl, by simp⟩
  | succ n ih =>
    intro bs qs rest hbytes h
    simp only [parseQuestions, Option.bind_eq_bind, Option.bind_eq_some, Option.pure_def,
      Option.some.injEq, Prod.mk.injEq] at h
    obtain ⟨⟨q, r⟩, hq, ⟨qs', r2⟩, hqs, hqe, hre⟩ := h
    subst hre
    subst hqe
    obtain ⟨qb, hpk, hqb, hwq⟩ := parseQuestion_sound hbytes hq
    have hrb : ∀ x ∈ r, x < 256 := by
      intro x hx
      exact hbytes x (hqb ▸ List.mem_append_right _ hx)
    obtain ⟨hlen, body', hpl, hbody, hall⟩ := ih r qs' r2 hrb hqs
    refine ⟨by simp [hlen], qb ++ body', ?_, ?_, ?_⟩
    · simp only [packList, Option.bind_eq_bind, hpk, Option.some_bind, hpl, Option.pure_def]
    · rw [← hqb, ← hbody, List.append_assoc]
    · intro x hx
      rcases List.mem_cons.mp hx with rfl | hx
      · exact hwq
      · exact hall x hx

theorem parseQuestions_pack : ∀ (qs : List DnsQuestion) (body rest : List Nat),
    (∀ q ∈ qs, wfQuestion q) → packList packQuestion qs = some body →
    parseQuestions qs.length (body ++ rest) = some (qs, rest) := by
  intro qs
  induction qs with
  | nil =>
    intro body rest _ h
    simp only [packList, Option.some.injEq] at h
    subst h
    simp [parseQuestions]
  | cons q qs ih =>
    intro body rest hall h
    simp only [packList, Option.bind_eq_bind, Option.bind_eq_some, Option.pure_def,
      Option.some.injEq] at h
    obtain ⟨qb, hq, body', hqs, rfl⟩ := h
    simp only [List.length_cons, parseQuestions, Option.bind_eq_bind, List.append_assoc]
    rw [parseQuestion_pack (hall q (List.mem_cons_self q qs)) hq]
    simp only [Option.some_bind]
    rw [ih body' rest (fun x hx => hall x (List.mem_cons_of_mem q hx)) hqs]
    rfl

theorem parseRRs_sound : ∀ (k : Nat) (bs : List Nat) (rrs : List DnsRR)
    (rest : List Nat), (∀ x ∈ bs, x < 256) → parseRRs k bs = some (rrs, rest) →
    rrs.length = k ∧ ∃ body, packList packRR rrs = some body ∧ body ++ rest = bs ∧
      ∀ rr ∈ rrs, wfRR rr := by
  intro k
  induction k with
  | zero =>
    intro bs rrs rest _ h
    simp only [parseRRs, Option.some.injEq, Prod.mk.injEq] at h
    obtain ⟨rfl, rfl⟩ := h
    exact ⟨rfl, [], rfl, rfl, by simp⟩
  | succ n ih =>
    intro bs rrs rest hbytes h
    simp only [parseRRs, Option.bind_eq_bind, Option.bind_eq_some, Option.pure_def,
      Option.some.injEq, Prod.mk.injEq] at h
    obtain ⟨⟨rr, r⟩, hq, ⟨rrs', r2⟩, hqs, hqe, hre⟩ := h
    subst hre
    subst hqe
    obtain ⟨rb, hpk, hqb, hwq⟩ := parseRR_sound hbytes hq
    have hrb : ∀ x ∈ r, x < 256 := by
      intro x hx
      exact hbytes x (hqb ▸ List.mem_append_right _ hx)
    obtain ⟨hlen, body', hpl, hbody, hall⟩ := ih r rrs' r2 hrb hqs
    refine ⟨by simp [hlen], rb ++ body', ?_, ?_, ?_⟩
    · simp only [packList, Option.bind_eq_bind, hpk, Option.some_bind, hpl, Option.pure_def]
    · rw [← hqb, ← hbody, List.append_assoc]
    · intro x hx
      rcases List.mem_cons.mp hx with rfl | hx
      · exact hwq
      · exact hall x hx

theorem parseRRs_pack : ∀ (rrs : List DnsRR) (body rest : List Nat),
    (∀ rr ∈ rrs, wfRR rr) → packList packRR rrs = some body →
    parseRRs rrs.length (body ++ rest) = some (rrs, rest) := by
  intro rrs
  induction rrs with
  | nil =>
    intro body rest _ h
    simp only [packList, Option.some.injEq] at h
    subst h
    simp [parseRRs]
  | cons rr rrs ih =>
    intro body rest hall h
    simp only [packList, Option.bind_eq_bind, Option.bind_eq_some, Option.pure_def,
      Option.some.injEq] at h
    obtain ⟨rb, hq, body', hqs, rfl⟩ := h
    simp only [List.length_cons, parseRRs, Option.bind_eq_bind, List.append_assoc]
    rw [parseRR_pack (hall rr (List.mem_cons_self rr rrs)) hq]
    simp only [Option.some_bind]
    rw [ih body' rest (fun x hx => hall x (List.mem_cons_of_mem rr hx)) hqs]
    rfl

theorem boolBit_le (b : Bool) : boolBit b ≤ 1 := by
  cases b <;> simp [boolBit]

theorem boolBit_beq_one (b : Bool) : (boolBit b == 1) = b := by
  cases b <;> rfl

theorem boolBit_of_beq {x : Nat} (h : x ≤ 1) : boolBit (x == 1) = x := by
  match x, h with
  | 0, _ => rfl
  | 1, _ => rfl

theorem packFlags_lt (m : DnsMsg) : packFlags m < 65536 := by
  have h1 := boolBit_le m.response
  have h2 := boolBit_le m.authoritative
  have h3 := boolBit_le m.truncated
  have h4 := boolBit_le m.recursionDesired
  have h5 := boolBit_le m.recursionAvailable
  have h6 := boolBit_le m.zero
  have h7 := boolBit_le m.authenticatedData
  have h8 := boolBit_le m.checkingDisabled
  have h9 : m.opcode % 16 < 16 := Nat.mod_lt _ (by omega)
  have h10 : m.rcode % 16 < 16 := Nat.mod_lt _ (by omega)
  unfold packFlags
  omega

theorem packFlags_extract (m : DnsMsg) (hop : m.opcode < 16) (hrc : m.rcode < 16) :
    packFlags m / 32768 % 2 = boolBit m.response ∧
    packFlags m / 2048 % 16 = m.opcode ∧
    packFlags m / 1024 % 2 = boolBit m.authoritative ∧
    packFlags m / 512 % 2 = boolBit m.truncated ∧
    packFlags m / 256 % 2 = boolBit m.recursionDesired ∧
    packFlags m / 128 % 2 = boolBit m.recursionAvailable ∧
    packFlags m / 64 % 2 = boolBit m.zero ∧
    packFlags m / 32 % 2 = boolBit m.authenticatedData ∧
    packFlags m / 16 % 2 = boolBit m.checkingDisabled ∧
    packFlags m % 16 = m.rcode := by
  have h1 := boolBit_le m.response
  have h2 := boolBit_le m.authoritative
  have h3 := boolBit_le m.truncated
  have h4 := boolBit_le m.recursionDesired
  have h5 := boolBit_le m.recursionAvailable
  have h6 := boolBit_le m.zero
  have h7 := boolBit_le m.authenticatedData
  have h8 := boolBit_le m.checkingDisabled
  unfold packFlags
  rw [Nat.mod_eq_of_lt hop, Nat.mod_eq_of_lt hrc]
  refine ⟨?_, ?_, ?_, ?_, ?_, ?_, ?_, ?_, ?_, ?_⟩ <;> omega

theorem readU16_sound {bs : List Nat} {v : Nat} {rest : List Nat}
    (h : readU16 bs = some (v, rest)) : ∃ a b, bs = a :: b :: rest ∧ v = a * 256 + b := by
  cases bs with
  | nil => simp [readU16] at h
  | cons x xs =>
    cases xs with
    | nil => simp [readU16] at h
    | cons y ys =>
      simp only [readU16, Option.some.injEq, Prod.mk.injEq] at h
      exact ⟨x, y, by rw [h.2], h.1.symm⟩

/-- The invariant of a message produced by an accepted unpack: all
counts in 16-bit range, flags fields in field range, every name
re-encodable. -/
def wfMsg (m : DnsMsg) : Prop :=
  m.id < 65536 ∧ m.opcode < 16 ∧ m.rcode < 16 ∧
  m.question.length < 65536 ∧ m.answer.length < 65536 ∧ m.ns.length < 65536 ∧
  m.extra.length < 65536 ∧ (∀ q ∈ m.question, wfQuestion q) ∧
  (∀ rr ∈ m.answer, wfRR rr) ∧ (∀ rr ∈ m.ns, wfRR rr) ∧ (∀ rr ∈ m.extra, wfRR rr)

theorem packQuestion_bytes {q : DnsQuestion} {qb : List Nat}
    (h : wfQuestion q) (hp : packQuestion q = some qb) : ∀ x ∈ qb, x < 256 := by
  obtain ⟨⟨labs, hwf, hname⟩, _, _⟩ := h
  rw [packQuestion, ← hname, encodeName_of_wf hwf] at hp
  simp only [Option.bind_eq_bind, Option.some_bind, Option.pure_def, Option.some.injEq] at hp
  subst hp
  intro x hx
  simp only [List.mem_append] at hx
  rcases hx with (hx | hx) | hx
  · exact encodeLabels_mem labs 0 hwf x hx
  · exact u16Bytes_mem hx
  · exact u16Bytes_mem hx

theorem packRR_bytes {rr : DnsRR} {rb : List Nat}
    (h : wfRR rr) (hp : packRR rr = some rb) : ∀ x ∈ rb, x < 256 := by
  obtain ⟨⟨labs, hwf, hname⟩, _, _, _, _, hmem⟩ := h
  rw [packRR, ← hname, encodeName_of_wf hwf] at hp
  simp only [Option.bind_eq_bind, Option.some_bind, Option.pure_def, Option.some.injEq] at hp
  subst hp
  intro x hx
  simp only [List.mem_append] at hx
  rcases hx with ((((hx | hx) | hx) | hx) | hx) | hx
  · exact encodeLabels_mem labs 0 hwf x hx
  · exact u16Bytes_mem hx
  · exact u16Bytes_mem hx
  · exact u32Bytes_mem hx
  · exact u16Bytes_mem hx
  · exact hmem x hx

theorem packListQ_bytes : ∀ (qs : List DnsQuestion) (body : List Nat),
    (∀ q ∈ qs, wfQuestion q) → packList packQuestion qs = some body →
    ∀ x ∈ body, x < 256 := by
  intro qs
  induction qs with
  | nil =>
    intro body _ h
    simp only [packList, Option.some.injEq] at h
    subst h
    simp
  | cons q qs ih =>
    intro body hall h
    simp only [packList, Option.bind_eq_bind, Option.bind_eq_some, Option.pure_def,
      Option.some.injEq] at h
    obtain ⟨qb, hq, body', hqs, rfl⟩ := h
    intro x hx
    rcases List.mem_append.mp hx with hx | hx
    · exact packQuestion_bytes (hall q (List.mem_cons_self q qs)) hq x hx
    · exact ih body' (fun y hy => hall y (List.mem_cons_of_mem q hy)) hqs x hx

theorem packListRR_bytes : ∀ (rrs : List DnsRR) (body : List Nat),
    (∀ rr ∈ rrs, wfRR rr) → packList packRR rrs = some body →
    ∀ x ∈ body, x < 256 := by
  intro rrs
  induction rrs with
  | nil =>
    intro body _ h
    simp only [packList, Option.some.injEq] at h
    subst h
    simp
  | cons rr rrs ih =>
    intro body hall h
    simp only [packList, Option.bind_eq_bind, Option.bind_eq_some, Option.pure_def,
      Option.some.injEq] at h
    obtain ⟨rb, hq, body', hqs, rfl⟩ := h
    intro x hx
    rcases List.mem_append.mp hx with hx | hx
    · exact packRR_bytes (hall rr (List.mem_cons_self rr rrs)) hq x hx
    · exact ih body' (fun y hy => hall y (List.mem_cons_of_mem rr hy)) hqs x hx

theorem packMsg_parts {m : DnsMsg} {buf : List Nat} (h : packMsg m = some buf) :
    ∃ qb ab nb eb, packList packQuestion m.question = some qb ∧
      packList packRR m.answer = some ab ∧ packList packRR m.ns = some nb ∧
      packList packRR m.extra = some eb ∧
      buf = u16Bytes m.id ++ u16Bytes (packFlags m) ++ u16Bytes m.question.length ++
        u16Bytes m.answer.length ++ u16Bytes m.ns.length ++ u16Bytes m.extra.length ++
        qb ++ ab ++ nb ++ eb := by
  simp only [packMsg, Option.bind_eq_bind, Option.bind_eq_some, Option.pure_def,
    Option.some.injEq] at h
  obtain ⟨qb, hqs, ab, has, nb, hns, eb, hes, hbuf⟩ := h
  exact ⟨qb, ab, nb, eb, hqs, has, hns, hes, hbuf.symm⟩

theorem packMsg_bytes {m : DnsMsg} {buf : List Nat} (hwf : wfMsg m)
    (h : packMsg m = some buf) : ∀ x ∈ buf, x < 256 := by
  obtain ⟨_, _, _, _, _, _, _, hq, ha, hn, he⟩ := hwf
  obtain ⟨qb, ab, nb, eb, hqs, has, hns, hes, rfl⟩ := packMsg_parts h
  intro x hx
  simp only [List.mem_append] at hx
  rcases hx with ((((((((hx | hx) | hx) | hx) | hx) | hx) | hx) | hx) | hx) | hx
  · exact u16Bytes_mem hx
  · exact u16Bytes_mem hx
  · exact u16Bytes_mem hx
  · exact u16Bytes_mem hx
  · exact u16Bytes_mem hx
  · exact u16Bytes_mem hx
  · exact packListQ_bytes _ _ hq hqs x hx
  · exact packListRR_bytes _ _ ha has x hx
  · exact packListRR_bytes _ _ hn hns x hx
  · exact packListRR_bytes _ _ he hes x hx

theorem packMsg_unpackMsg {m : DnsMsg} {buf : List Nat} (hwf : wfMsg m)
    (h : packMsg m = some buf) : unpackMsg buf = some m := by
  have hbytes := packMsg_bytes hwf h
  obtain ⟨hid, hop, hrc, _, _, _, _, hq, ha, hn, he⟩ := hwf
  obtain ⟨qb, ab, nb, eb, hqs, has, hns, hes, rfl⟩ := packMsg_parts h
  rw [unpackMsg, if_pos (List.all_eq_true.mpr fun x hx => by
    simpa using hbytes x hx)]
  have hq' : parseQuestions m.question.length (qb ++ (ab ++ (nb ++ eb))) =
      some (m.question, ab ++ (nb ++ eb)) := parseQuestions_pack _ _ _ hq hqs
  have ha' : parseRRs m.answer.length (ab ++ (nb ++ eb)) = some (m.answer, nb ++ eb) :=
    parseRRs_pack _ _ _ ha has
  have hn' : parseRRs m.ns.length (nb ++ eb) = some (m.ns, eb) :=
    parseRRs_pack _ _ _ hn hns
  have he' : parseRRs m.extra.length eb = some (m.extra, []) := by
    have := parseRRs_pack m.extra eb [] he hes
    simpa using this
  obtain ⟨e1, e2, e3, e4, e5, e6, e7, e8, e9, e10⟩ := packFlags_extract m hop hrc
  simp only [List.append_assoc, Option.bind_eq_bind, readU16_u16Bytes hid,
    readU16_u16Bytes (packFlags_lt m), readU16_u16Bytes (show m.question.length < 65536 by omega),
    readU16_u16Bytes (show m.answer.length < 65536 by omega),
    readU16_u16Bytes (show m.ns.length < 65536 by omega),
    readU16_u16Bytes (show m.extra.length < 65536 by omega),
    Option.some_bind, hq', ha', hn', he', e1, e2, e3, e4, e5, e6, e7, e8, e9, e10,
    Option.pure_def, Option.some.injEq, boolBit_beq_one]

theorem unpackMsg_sound {buf : List Nat} {m : DnsMsg} (h : unpackMsg buf = some m) :
    wfMsg m ∧ ∃ buf2, packMsg m = some buf2 := by
  rw [unpackMsg] at h
  by_cases hall : buf.all (· < 256)
  swap
  · rw [if_neg hall] at h; simp at h
  rw [if_pos hall] at h
  have hbytes : ∀ x ∈ buf, x < 256 := by
    intro x hx
    simpa using List.all_eq_true.mp hall x hx
  simp only [Option.bind_eq_bind, Option.bind_eq_some, Option.pure_def,
    Option.some.injEq] at h
  obtain ⟨⟨i, r1⟩, h1, ⟨flags, r2⟩, h2, ⟨qd, r3⟩, h3, ⟨an, r4⟩, h4, ⟨nsc, r5⟩, h5,
    ⟨ar, r6⟩, h6, ⟨qs, r7⟩, h7, ⟨ans, r8⟩, h8, ⟨nss, r9⟩, h9, ⟨ext, r10⟩, h10, hm⟩ := h
  obtain ⟨a1, a2, rfl, rfl⟩ := readU16_sound h1
  obtain ⟨b1, b2, rfl, rfl⟩ := readU16_sound h2
  obtain ⟨c1, c2, rfl, rfl⟩ := readU16_sound h3
  obtain ⟨d1, d2, rfl, rfl⟩ := readU16_sound h4
  obtain ⟨f1, f2, rfl, rfl⟩ := readU16_sound h5
  obtain ⟨g1, g2, rfl, rfl⟩ := readU16_sound h6
  have hr6 : ∀ x ∈ r6, x < 256 := by
    intro x hx
    apply hbytes
    simp [hx]
  obtain ⟨hqlen, qpl, hqpl, hqbody, hqwf⟩ := parseQuestions_sound _ _ _ _ hr6 h7
  have hr7 : ∀ x ∈ r7, x < 256 := by
    intro x hx
    exact hr6 x (hqbody ▸ List.mem_append_right _ hx)
  obtain ⟨halen, apl, hapl, habody, hawf⟩ := parseRRs_sound _ _ _ _ hr7 h8
  have hr8 : ∀ x ∈ r8, x < 256 := by
    intro x hx
    exact hr7 x (habody ▸ List.mem_append_right _ hx)
  obtain ⟨hnlen, npl, hnpl, hnbody, hnwf⟩ := parseRRs_sound _ _ _ _ hr8 h9
  have hr9 : ∀ x ∈ r9, x < 256 := by
    intro x hx
    exact hr8 x (hnbody ▸ List.mem_append_right _ hx)
  obtain ⟨helen, epl, hepl, hebody, hewf⟩ := parseRRs_sound _ _ _ _ hr9 h10
  have ha1 : a1 < 256 := hbytes a1 (by simp)
  have ha2 : a2 < 256 := hbytes a2 (by simp)
  have hc1 : c1 < 256 := hbytes c1 (by simp)
  have hc2 : c2 < 256 := hbytes c2 (by simp)
  have hd1 : d1 < 256 := hbytes d1 (by simp)
  have hd2 : d2 < 256 := hbytes d2 (by simp)
  have hf1 : f1 < 256 := hbytes f1 (by simp)
  have hf2 : f2 < 256 := hbytes f2 (by simp)
  have hg1 : g1 < 256 := hbytes g1 (by simp)
  have hg2 : g2 < 256 := hbytes g2 (by simp)
  subst hm
  constructor
  · refine ⟨by dsimp only; omega, by dsimp only; exact Nat.mod_lt _ (by omega),
      by dsimp only; exact Nat.mod_lt _ (by omega), ?_, ?_, ?_, ?_,
      by dsimp only; exact hqwf, by dsimp only; exact hawf,
      by dsimp only; exact hnwf, by dsimp only; exact hewf⟩
    · dsimp only
      rw [hqlen]
      omega
    · dsimp only
      rw [halen]
      omega
    · dsimp only
      rw [hnlen]
      omega
    · dsimp only
      rw [helen]
      omega
  · rw [packMsg]
    dsimp only
    rw [hqpl, hapl, hnpl, hepl]
    exact ⟨_, rfl⟩

/-- Unpack → repack → re-unpack: any message an accepted payload
unpacks to packs again, and the packed form unpacks to the same
message. -/
theorem unpackMsg_repack {buf : List Nat} {m : DnsMsg} (h : unpackMsg buf = some m) :
    ∃ buf2, packMsg m = some buf2 ∧ unpackMsg buf2 = some m := by
  obtain ⟨hwf, buf2, hp⟩ := unpackMsg_sound h
  exact ⟨buf2, hp, packMsg_unpackMsg hwf hp⟩

/-! ## Helper lemmas for the handler claims -/

set_option maxHeartbeats 1000000 in
theorem HTTPDNSSupportType_lt {t : String} {v : Nat}
    (h : HTTPDNSSupportType t = some v) : v < 65536 := by
  unfold HTTPDNSSupportType at h
  by_cases hg1 : t = ""
  · rw [if_pos hg1] at h
    simp only [Option.some.injEq] at h
    omega
  rw [if_neg hg1] at h
  by_cases hg2 : t = "A"
  · rw [if_pos hg2] at h
    simp only [Option.some.injEq] at h
    omega
  rw [if_neg hg2] at h
  by_cases hg3 : t = "AAAA"
  · rw [if_pos hg3] at h
    simp only [Option.some.injEq] at h
    omega
  rw [if_neg hg3] at h
  by_cases hg4 : t = "NS"
  · rw [if_pos hg4] at h
    simp only [Option.some.injEq] at h
    omega
  rw [if_neg hg4] at h
  by_cases hg5 : t = "PTR"
  · rw [if_pos hg5] at h
    simp only [Option.some.injEq] at h
    omega
  rw [if_neg hg5] at h
  by_cases hg6 : t = "TXT"
  · rw [if_pos hg6] at h
    simp only [Option.some.injEq] at h
    omega
  rw [if_neg hg6] at h
  by_cases hg7 : t = "SOA"
  · rw [if_pos hg7] at h
    simp only [Option.some.injEq] at h
    omega
  rw [if_neg hg7] at h
  by_cases hg8 : t = "SPF"
  · rw [if_pos hg8] at h
    simp only [Option.some.injEq] at h
    omega
  rw [if_neg hg8] at h
  by_cases hg9 : t = "SRV"
  · rw [if_pos hg9] at h
    simp only [Option.some.injEq] at h
    omega
  rw [if_neg hg9] at h
  by_cases hg10 : t = "MX"
  · rw [if_pos hg10] at h
    simp only [Option.some.injEq] at h
    omega
  rw [if_neg hg10] at h
  by_cases hg11 : t = "NAPTR"
  · rw [if_pos hg11] at h
    simp only [Option.some.injEq] at h
    omega
  rw [if_neg hg11] at h
  by_cases hg12 : t = "CNAME"
  · rw [if_pos hg12] at h
    simp only [Option.some.injEq] at h
    omega
  rw [if_neg hg12] at h
  by_cases hg13 : t = "DNAME"
  · rw [if_pos hg13] at h
    simp only [Option.some.injEq] at h
    omega
  rw [if_neg hg13] at h
  by_cases hg14 : t = "CAA"
  · rw [if_pos hg14] at h
    simp only [Option.some.injEq] at h
    omega
  rw [if_neg hg14] at h
  simp at h

theorem unpackMsg_nil : unpackMsg [] = none := by decide

theorem packQuestion_exists {q : DnsQuestion} (h : wfQuestion q) :
    ∃ qb, packQuestion q = some qb := by
  obtain ⟨⟨labs, hwf, hname⟩, _, _⟩ := h
  exact ⟨_, by rw [packQuestion, ← hname, encodeName_of_wf hwf]; rfl⟩

theorem packRR_exists {rr : DnsRR} (h : wfRR rr) : ∃ rb, packRR rr = some rb := by
  obtain ⟨⟨labs, hwf, hname⟩, _⟩ := h
  exact ⟨_, by rw [packRR, ← hname, encodeName_of_wf hwf]; rfl⟩

theorem packListQ_exists : ∀ (qs : List DnsQuestion), (∀ q ∈ qs, wfQuestion q) →
    ∃ body, packList packQuestion qs = some body := by
  intro qs
  induction qs with
  | nil => intro _; exact ⟨[], rfl⟩
  | cons q qs ih =>
    intro h
    obtain ⟨qb, hq⟩ := packQuestion_exists (h q (List.mem_cons_self q qs))
    obtain ⟨body, hb⟩ := ih fun x hx => h x (List.mem_cons_of_mem q hx)
    refine ⟨qb ++ body, ?_⟩
    rw [packList, hq, hb]
    rfl

theorem packListRR_exists : ∀ (rrs : List DnsRR), (∀ rr ∈ rrs, wfRR rr) →
    ∃ body, packList packRR rrs = some body := by
  intro rrs
  induction rrs with
  | nil => intro _; exact ⟨[], rfl⟩
  | cons rr rrs ih =>
    intro h
    obtain ⟨rb, hq⟩ := packRR_exists (h rr (List.mem_cons_self rr rrs))
    obtain ⟨body, hb⟩ := ih fun x hx => h x (List.mem_cons_of_mem rr hx)
    refine ⟨rb ++ body, ?_⟩
    rw [packList, hq, hb]
    rfl

theorem packMsg_exists {m : DnsMsg} (hwf : wfMsg m) : ∃ buf, packMsg m = some buf := by
  obtain ⟨_, _, _, _, _, _, _, hq, ha, hn, he⟩ := hwf
  obtain ⟨qb, hqs⟩ := packListQ_exists _ hq
  obtain ⟨ab, has⟩ := packListRR_exists _ ha
  obtain ⟨nb, hns⟩ := packListRR_exists _ hn
  obtain ⟨eb, hes⟩ := packListRR_exists _ he
  exact ⟨_, by rw [packMsg, hqs, has, hns, hes]; rfl⟩

theorem packMsg_some_ne_nil {m : DnsMsg} {buf : List Nat}
    (h : packMsg m = some buf) : buf ≠ [] := by
  obtain ⟨_, _, _, _, _, _, _, _, rfl⟩ := packMsg_parts h
  simp [u16Bytes]

/-- The root name is round-trippable: the empty label list. -/
theorem nameRT_root : nameRT "." := ⟨[], trivial, rfl⟩

/-- Well-formedness of the message `parseHTTPArgs` synthesizes for the
root name. -/
theorem wfMsg_synthRoot {qt freshId : Nat} (hqt : qt < 65536) (hid : freshId < 65536) :
    wfMsg { emptyMsg with
            id := freshId
            recursionDesired := true
            question := [⟨".", qt, 1⟩] } := by
  refine ⟨hid, ?_, ?_, ?_, ?_, ?_, ?_, ?_, ?_, ?_, ?_⟩
  · show (0 : Nat) < 16
    omega
  · show (0 : Nat) < 16
    omega
  · show ([⟨".", qt, 1⟩] : List DnsQuestion).length < 65536
    simp
  · show ([] : List DnsRR).length < 65536
    simp
  · show ([] : List DnsRR).length < 65536
    simp
  · show ([] : List DnsRR).length < 65536
    simp
  · intro q hq
    simp only [List.mem_singleton] at hq
    subst hq
    refine ⟨nameRT_root, hqt, ?_⟩
    show (1 : Nat) < 65536
    omega
  · intro rr hrr
    simp [emptyMsg] at hrr
  · intro rr hrr
    simp [emptyMsg] at hrr
  · intro rr hrr
    simp [emptyMsg] at hrr

/-! ## Claim theorems -/

/-- C9: for every GET request outside the JSON paths whose `dns`
parameter base64url-decodes to a payload that unpacks as a DNS message,
the decoder returns exactly that canonical message with status 200, and
packing the message back yields a payload that unpacks to an equal
canonical query (pack/unpack round-trip law). -/
theorem doh_get_roundtrip (r : HRequest) (freshId : Nat) (buf : List Nat) (m : DnsMsg)
    (hget : r.method = "GET")
    (hpath : ¬ (r.path = HttpDnsUrlPathPrefix ∨ r.path = HttpDnsUrlPathPrefixBak))
    (hdec : b64urlDecode r.query.dns = some buf)
    (hm : unpackMsg buf = some m) :
    newDoHOrHttpReq r freshId = ⟨some m, 200, HttpDnsAnswerTypeDoh, ""⟩ ∧
    ∃ buf2, packMsg m = some buf2 ∧ unpackMsg buf2 = some m := by
  have hne : buf ≠ [] := by
    intro hc
    subst hc
    rw [unpackMsg_nil] at hm
    exact Option.noConfusion hm
  constructor
  · rw [newDoHOrHttpReq, if_pos hget, if_neg hpath, hdec]
    dsimp only
    rw [if_neg hne, hm]
  · exact unpackMsg_repack hm

/-- Empty header set (no trust-relevant headers present). -/
def emptyHeaders : HHeaders := ⟨"", "", "", "", "", ""⟩

/-- Empty query-parameter set. -/
def emptyQuery : HQuery := ⟨"", "", "", ""⟩

/-- A root A query with transaction id 0 and recursion desired. -/
def rootAQuery : DnsMsg :=
  ⟨0, false, 0, false, false, true, false, false, false, false, 0, [⟨".", 1, 1⟩], [], [], []⟩

/-- A GET request on a binary DoH path carrying the base64url form of
`rootAQuery`. -/
def c9req : HRequest :=
  ⟨"GET", "/dns-query2", "", { emptyQuery with dns := "AAABAAABAAAAAAAAAAABAAE" },
    emptyHeaders, "1.2.3.4:5555", []⟩

/-- C9 witness: a concrete canonical root query in base64url form
round-trips through the decoder. -/
theorem doh_get_roundtrip_witness :
    newDoHOrHttpReq c9req 0 = ⟨some rootAQuery, 200, HttpDnsAnswerTypeDoh, ""⟩ ∧
    ∃ buf2, packMsg rootAQuery = some buf2 ∧ unpackMsg buf2 = some rootAQuery :=
  doh_get_roundtrip c9req 0 [0, 0, 1, 0, 0, 1, 0, 0, 0, 0, 0, 0, 0, 0, 1, 0, 1]
    rootAQuery rfl (by decide) (by decide) (by decide)

/-- C10: a GET on a JSON path with an empty (or absent) `name`
parameter and a recognized type does not fail: the canonicalized
question name is the DNS root ".", a syntactically valid root-zone
query is synthesized, and the decoder returns it with status 200. -/
theorem json_empty_name_root (r : HRequest) (freshId qt : Nat)
    (hget : r.method = "GET")
    (hpath : r.path = HttpDnsUrlPathPrefix ∨ r.path = HttpDnsUrlPathPrefixBak)
    (hname : r.query.name = "")
    (htype : HTTPDNSSupportType (goToUpper r.query.type_) = some qt)
    (hid : freshId < 65536) :
    ∃ m, newDoHOrHttpReq r freshId =
        ⟨some m, 200, HttpDnsAnswerTypeJsonAnswer, r.query.ip⟩ ∧
      m.question = [⟨".", qt, 1⟩] ∧ m.recursionDesired = true := by
  have hc : convertFQDN r.query.name = "." := by
    rw [hname]
    decide
  have hsyn : synthHTTPDNSMsg r.query freshId =
      some { emptyMsg with
             id := freshId
             recursionDesired := true
             question := [⟨".", qt, 1⟩] } := by
    unfold synthHTTPDNSMsg
    rw [htype]
    simp only [Option.map_some']
    rw [hc]
    rfl
  have hwf := wfMsg_synthRoot (HTTPDNSSupportType_lt htype) hid
  obtain ⟨buf, hpack⟩ := packMsg_exists hwf
  have hunp := packMsg_unpackMsg hwf hpack
  have hne := packMsg_some_ne_nil hpack
  refine ⟨{ emptyMsg with
            id := freshId
            recursionDesired := true
            question := [⟨".", qt, 1⟩] }, ?_, rfl, rfl⟩
  rw [newDoHOrHttpReq, if_pos hget, if_pos hpath]
  dsimp only
  rw [parseHTTPArgs, hsyn]
  dsimp only
  rw [hpack]
  dsimp only
  rw [if_neg hne, hunp]

/-- A GET on the JSON path with no parameters at all. -/
def c10req : HRequest :=
  ⟨"GET", "/resolve", "", emptyQuery, emptyHeaders, "1.2.3.4:5555", []⟩

/-- C10 witness: the empty `name` and empty `type` produce a processed
root-zone A query. -/
theorem json_empty_name_root_witness :
    ∃ m, newDoHOrHttpReq c10req 0 =
        ⟨some m, 200, HttpDnsAnswerTypeJsonAnswer, c10req.query.ip⟩ ∧
      m.question = [⟨".", 1, 1⟩] ∧ m.recursionDesired = true :=
  json_empty_name_root c10req 0 1 rfl (Or.inl rfl) rfl (by decide) (by decide)

/-- A JSON-path GET whose `name` has a trailing dot guarded by a
space.  The claimed canonicalization ("surrounding whitespace and dots
trimmed, then a single trailing dot appended") yields the packable name
`example.com.`, but the source trims dots before whitespace, producing
`example.com..`, which fails to pack. -/
def c5req : HRequest :=
  ⟨"GET", "/resolve", "", ⟨"", "example.com. ", "A", ""⟩, emptyHeaders,
    "1.2.3.4:5555", []⟩

/-- C5 counterexample: with `name=example.com. ` and `type=A` the claim
demands a synthesized query named `example.com.` (the combined trim of
whitespace and dots, plus one dot), but the decoder fails the request
with 400 and produces no query at all. -/
theorem json_name_canon_counterexample :
    specTrimSpaceDot "example.com. " ++ "." = "example.com." ∧
    newDoHOrHttpReq c5req 0 = ⟨none, 400, HttpDnsAnswerTypeJsonAnswer, ""⟩ := by
  constructor
  · decide
  · decide

theorem hasSuffixDot_append_dot (s : String) : hasSuffixDot (s ++ ".") = true := by
  unfold hasSuffixDot
  rw [String.data_append]
  have : ("." : String).data = ['.'] := rfl
  rw [this, List.getLast?_concat]
  simp

/-- C5 amended: for every GET on the JSON paths, the synthesized
canonical query has exactly one INET question whose name is the `name`
parameter with surrounding dots trimmed first, then surrounding
whitespace trimmed, then a single trailing dot appended, and whose type
is the case-insensitive lookup of `type` in the fixed table (empty
defaulting to A), with recursion desired and the fresh transaction id;
an unrecognized type fails the request, and the packed synthesized
query is what the decoder goes on to unpack (a name made unpackable by
leftover empty labels therefore fails the request with 400). -/
theorem json_name_canon_amended (args : HQuery) (freshId : Nat) :
    (HTTPDNSSupportType (goToUpper args.type_) = none →
      parseHTTPArgs args freshId = (none, "")) ∧
    (∀ m, synthHTTPDNSMsg args freshId = some m →
      ∃ qt, HTTPDNSSupportType (goToUpper args.type_) = some qt ∧
        m.question = [⟨goTrimSpace (goTrimDot args.name) ++ ".", qt, 1⟩] ∧
        m.recursionDesired = true ∧ m.id = freshId ∧
        m.answer = [] ∧ m.ns = [] ∧ m.extra = []) ∧
    (∀ m, synthHTTPDNSMsg args freshId = some m →
      parseHTTPArgs args freshId = (packMsg m, args.ip)) := by
  refine ⟨?_, ?_, ?_⟩
  · intro h
    unfold parseHTTPArgs synthHTTPDNSMsg
    rw [h]
    rfl
  · intro m hm
    unfold synthHTTPDNSMsg at hm
    cases htype : HTTPDNSSupportType (goToUpper args.type_) with
    | none => rw [htype] at hm; simp at hm
    | some qt =>
      rw [htype] at hm
      simp only [Option.map_some', Option.some.injEq] at hm
      subst hm
      refine ⟨qt, rfl, ?_, rfl, rfl, rfl, rfl, rfl⟩
      show [(⟨if hasSuffixDot (convertFQDN args.name) then convertFQDN args.name
              else convertFQDN args.name ++ ".", qt, 1⟩ : DnsQuestion)] = _
      rw [show convertFQDN args.name = goTrimSpace (goTrimDot args.name) ++ "." from rfl,
        hasSuffixDot_append_dot, if_pos rfl]
  · intro m hm
    unfold parseHTTPArgs
    rw [hm]

/-- C5 amended witness: an unrecognized type fails; a plain name is
canonicalized with a single appended dot and packed. -/
theorem json_name_canon_amended_witness :
    parseHTTPArgs ⟨"", "", "ZZZ", ""⟩ 0 = (none, "") ∧
    ∃ m, synthHTTPDNSMsg ⟨"", " a.b ", "A", "9.9.9.9"⟩ 7 = some m ∧
      (∃ qt, HTTPDNSSupportType (goToUpper ("A" : String)) = some qt ∧
        m.question = [⟨goTrimSpace (goTrimDot " a.b ") ++ ".", qt, 1⟩] ∧
        m.recursionDesired = true ∧ m.id = 7 ∧
        m.answer = [] ∧ m.ns = [] ∧ m.extra = []) ∧
      parseHTTPArgs ⟨"", " a.b ", "A", "9.9.9.9"⟩ 7 = (packMsg m, "9.9.9.9") := by
  refine ⟨(json_name_canon_amended ⟨"", "", "ZZZ", ""⟩ 0).1 (by decide),
    ⟨7, false, 0, false, false, true, false, false, false, false, 0,
      [⟨"a.b.", 1, 1⟩], [], [], []⟩, by decide, ?_, ?_⟩
  · exact (json_name_canon_amended ⟨"", " a.b ", "A", "9.9.9.9"⟩ 7).2.1 _ (by decide)
  · exact (json_name_canon_amended ⟨"", " a.b ", "A", "9.9.9.9"⟩ 7).2.2 _ (by decide)

/-- A context in HTTPS protocol with JSON answer kind carrying a
resolved root answer. -/
def c1ctx : DNSContext :=
  ⟨Proto.https, rootAQuery, some rootAQuery, HttpDnsAnswerTypeJsonAnswer, none, none, ""⟩

/-- C1 counterexample: a context whose encoding kind is JSON but whose
protocol tag is not ProtoHTTP gets a packed wire-format body (with
content type application/json), not the JSON response object — the body
encoding is not determined solely by the encoding kind. -/
theorem respond_body_kind_counterexample :
    c1ctx.answerType = HttpDnsAnswerTypeJsonAnswer ∧
    c1ctx.res = some rootAQuery ∧
    respondHTTPS "" c1ctx ≠
      RespondResult.written none "application/json"
        (strBytes (marshalDnsResponse (dnsResponseOf rootAQuery))) ∧
    respondHTTPS "" { c1ctx with proto := Proto.http } =
      RespondResult.written none "application/json"
        (strBytes (marshalDnsResponse (dnsResponseOf rootAQuery))) := by
  refine ⟨rfl, rfl, ?_, by decide⟩
  decide

/-- C1 amended: the content type is determined solely by the context's
encoding kind; the JSON response object is the body exactly when the
protocol tag is ProtoHTTP and the kind is JSON, and the packed wire
form is the body when the kind is binary or the protocol tag is not
ProtoHTTP; the kind recorded in the context is the one fixed by the
decoder. -/
theorem respond_body_kind_amended (sn : String) (d : DNSContext) (resp : DnsMsg)
    (hres : d.res = some resp) :
    (d.answerType ≠ HttpDnsAnswerTypeDoh → d.proto = Proto.http →
      respondHTTPS sn d = RespondResult.written (if sn ≠ "" then some sn else none)
        "application/json" (strBytes (marshalDnsResponse (dnsResponseOf resp)))) ∧
    (∀ pb, packMsg resp = some pb → d.answerType = HttpDnsAnswerTypeDoh →
      respondHTTPS sn d = RespondResult.written (if sn ≠ "" then some sn else none)
        "application/dns-message" pb) ∧
    (∀ pb, packMsg resp = some pb → d.proto ≠ Proto.http →
      respondHTTPS sn d = RespondResult.written (if sn ≠ "" then some sn else none)
        (if d.answerType = HttpDnsAnswerTypeDoh then "application/dns-message"
         else "application/json") pb) ∧
    (∀ srv ct body, respondHTTPS sn d = RespondResult.written srv ct body →
      ct = (if d.answerType = HttpDnsAnswerTypeDoh then "application/dns-message"
            else "application/json")) ∧
    (∀ trusted ui r fid d2, serveHTTP trusted ui r fid = ServeOutcome.handled d2 →
      d2.answerType = (newDoHOrHttpReq r fid).answerType) := by
  refine ⟨?_, ?_, ?_, ?_, ?_⟩
  · intro hat hpr
    simp only [respondHTTPS, hres, hpr, if_pos rfl, formatHTTPDNSMsg, if_neg hat,
      if_true]
  · intro pb hpb hat
    cases hpr : d.proto with
    | http =>
      simp only [respondHTTPS, hres, hpr, if_pos rfl, formatHTTPDNSMsg, if_pos hat, hpb,
        if_true]
    | https =>
      have hne : d.proto ≠ Proto.http := by rw [hpr]; simp
      simp only [respondHTTPS, hres, if_neg hne, hpb, if_pos hat, if_true]
  · intro pb hpb hpr
    simp only [respondHTTPS, hres, if_neg hpr, hpb, if_true]
  · intro srv ct body h
    rw [respondHTTPS, hres] at h
    dsimp only at h
    cases hb : (if d.proto = Proto.http then formatHTTPDNSMsg resp d.answerType
                else packMsg resp) with
    | none => rw [hb] at h; exact absurd h (by simp)
    | some bytes =>
      rw [hb] at h
      dsimp only at h
      rw [RespondResult.written.injEq] at h
      exact h.2.1.symm
  · intro trusted ui r fid d2 h
    rw [serveHTTP] at h
    cases hd : (newDoHOrHttpReq r fid).req with
    | none => rw [hd] at h; exact absurd h (by simp)
    | some req =>
      rw [hd] at h
      dsimp only at h
      by_cases hauth : (checkBasicAuth ui r).shouldHandle
      · rw [if_neg (by simp [hauth])] at h
        rw [ServeOutcome.handled.injEq] at h
        rw [← h]
      · rw [if_pos (by simp [hauth])] at h
        exact absurd h (by simp)

/-- C1 amended witness: with a server name configured, an HTTP/JSON
context gets the JSON object body and a binary-kind context gets the
packed body with the dns-message content type. -/
theorem respond_body_kind_amended_witness :
    respondHTTPS "srv" { c1ctx with proto := Proto.http } =
      RespondResult.written (some "srv") "application/json"
        (strBytes (marshalDnsResponse (dnsResponseOf rootAQuery))) ∧
    ∃ pb, packMsg rootAQuery = some pb ∧
      respondHTTPS "srv" { c1ctx with answerType := HttpDnsAnswerTypeDoh } =
        RespondResult.written (some "srv") "application/dns-message" pb := by
  constructor
  · have := (respond_body_kind_amended "srv" { c1ctx with proto := Proto.http }
      rootAQuery rfl).1 (by decide) rfl
    simpa using this
  · refine ⟨[0, 0, 1, 0, 0, 1, 0, 0, 0, 0, 0, 0, 0, 0, 1, 0, 1], by decide, ?_⟩
    have := (respond_body_kind_amended "srv"
      { c1ctx with answerType := HttpDnsAnswerTypeDoh } rootAQuery rfl).2.1
      [0, 0, 1, 0, 0, 1, 0, 0, 0, 0, 0, 0, 0, 0, 1, 0, 1] (by decide) rfl
    simpa using this

/-- C4 counterexample: a resolved message with no question section is
marshalled as the zero response object, whose `answer` field is a nil
slice rendered as JSON `null` — not an array. -/
theorem json_answer_array_counterexample :
    emptyMsg.question = [] ∧
    (dnsResponseOf emptyMsg).answer = none ∧
    marshalDnsResponse (dnsResponseOf emptyMsg) =
      "\x7b\"tc\":false,\"rd\":false,\"ra\":false,\"ad\":false,\"cd\":false,\"status\":0,\"question\":null,\"answer\":null\x7d" := by
  refine ⟨rfl, rfl, ?_⟩
  decide

/-- C4 amended: whenever the message has at least one question, the
JSON object's `answer` field is an array (rendered with brackets), empty
exactly when no answer record's presentation type matches the queried
type; only the no-question default object renders `answer` as null. -/
theorem json_answer_array_amended (msg : DnsMsg) (q : DnsQuestion)
    (qs : List DnsQuestion) (h : msg.question = q :: qs) :
    ∃ rrs, (dnsResponseOf msg).answer = some rrs ∧
      jsonSliceField marshalJRR (dnsResponseOf msg).answer = jsonArr (rrs.map marshalJRR) ∧
      (rrs = [] ↔ ∀ arr ∈ rrsToArray msg.answer,
        ¬ typeToString q.qtype = arr.getD 3 "") := by
  unfold dnsResponseOf
  rw [h]
  dsimp only
  refine ⟨_, rfl, rfl, ?_⟩
  rw [List.filterMap_eq_nil_iff]
  constructor
  · intro hall arr harr hc
    have := hall arr harr
    rw [if_pos hc] at this
    exact Option.noConfusion this
  · intro hall arr harr
    rw [if_neg (hall arr harr)]

/-- C4 amended witness: a one-question answer with one matching A
record yields a singleton answer array; the same message without
matching records yields the empty array, still rendered as `[]`. -/
theorem json_answer_array_amended_witness :
    (∃ rrs, (dnsResponseOf { rootAQuery with
                             answer := [⟨".", 1, 1, 60, [9, 9, 9, 9]⟩] }).answer =
        some rrs ∧
      jsonSliceField marshalJRR (dnsResponseOf { rootAQuery with
                                 answer := [⟨".", 1, 1, 60, [9, 9, 9, 9]⟩] }).answer =
        jsonArr (rrs.map marshalJRR) ∧
      (rrs = [] ↔ ∀ arr ∈ rrsToArray [(⟨".", 1, 1, 60, [9, 9, 9, 9]⟩ : DnsRR)],
        ¬ typeToString (1 : Nat) = arr.getD 3 "")) ∧
    (dnsResponseOf rootAQuery).answer = some [] ∧
    jsonSliceField marshalJRR (dnsResponseOf rootAQuery).answer = "[]" := by
  refine ⟨?_, by decide, by decide⟩
  exact json_answer_array_amended _ ⟨".", 1, 1⟩ [] rfl

/-- C2: when header extraction yields a real-client address (and no
override is in play), a peer outside the TrustedProxySet forces the
effective client address back to the peer address, discarding the
header-derived address, while a peer inside the set keeps the
header-derived address (port 0) as the effective client and records the
peer as the proxy address. -/
theorem proxy_trust (trusted : List GoAddr) (r : HRequest) (freshId : Nat)
    (req : DnsMsg) (at2 : Nat) (peer : GoAddrPort) (hip : GoAddr)
    (hdec : newDoHOrHttpReq r freshId = ⟨some req, 200, at2, ""⟩)
    (hpeer : goParseAddrPort r.remoteAddr = some peer)
    (hhdr : realIPFromHdrs r.headers = some hip) :
    ∃ d, serveHTTP trusted none r freshId = ServeOutcome.handled d ∧
      (¬ trusted.contains peer.addr → d.addr = some peer) ∧
      (trusted.contains peer.addr →
        d.addr = some ⟨hip, 0⟩ ∧ d.preAddr = some peer) := by
  have hra : remoteAddrWithRemoteHost r "" = ⟨some ⟨hip, 0⟩, some peer, false⟩ := by
    rw [remoteAddrWithRemoteHost, resolvedHost, hpeer]
    dsimp only
    rw [if_neg (by simp), hhdr]
  have hserve : serveHTTP trusted none r freshId = ServeOutcome.handled
      { proto := protoOfRequest r
        req := req
        res := none
        answerType := at2
        addr := if ¬ trusted.contains peer.addr then some peer else some ⟨hip, 0⟩
        preAddr := some peer
        xForwardedFor := r.headers.xForwardedFor } := by
    rw [serveHTTP]
    simp only [hdec, hra, checkBasicAuth]
    rw [if_neg (by simp)]
  refine ⟨_, hserve, ?_, ?_⟩
  · intro h
    show (if ¬ trusted.contains peer.addr then some peer else some ⟨hip, 0⟩) = some peer
    rw [if_pos h]
  · intro h
    refine ⟨?_, rfl⟩
    show (if ¬ trusted.contains peer.addr then some peer else some ⟨hip, 0⟩) =
      some ⟨hip, 0⟩
    rw [if_neg (not_not_intro h)]

/-- A JSON-path GET from peer 1.2.3.4:5555 carrying a CDN connecting-IP
header claiming 9.9.9.9. -/
def c2req : HRequest :=
  ⟨"GET", "/resolve", "", emptyQuery, { emptyHeaders with cfConnectingIP := "9.9.9.9" },
    "1.2.3.4:5555", []⟩

/-- C2 witness: with the peer untrusted the effective address is the
peer; with the peer trusted the effective address is the header-derived
9.9.9.9 and the proxy address is the peer. -/
theorem proxy_trust_witness :
    (∃ d, serveHTTP [] none c2req 0 = ServeOutcome.handled d ∧
      d.addr = some ⟨GoAddr.v4 1 2 3 4, 5555⟩) ∧
    (∃ d, serveHTTP [GoAddr.v4 1 2 3 4] none c2req 0 = ServeOutcome.handled d ∧
      d.addr = some ⟨GoAddr.v4 9 9 9 9, 0⟩ ∧
      d.preAddr = some ⟨GoAddr.v4 1 2 3 4, 5555⟩) := by
  constructor
  · obtain ⟨d, hd, h1, _⟩ := proxy_trust [] c2req 0 rootAQuery 1
      ⟨GoAddr.v4 1 2 3 4, 5555⟩ (GoAddr.v4 9 9 9 9) (by decide) (by decide) (by decide)
    exact ⟨d, hd, h1 (by decide)⟩
  · obtain ⟨d, hd, _, h2⟩ := proxy_trust [GoAddr.v4 1 2 3 4] c2req 0 rootAQuery 1
      ⟨GoAddr.v4 1 2 3 4, 5555⟩ (GoAddr.v4 9 9 9 9) (by decide) (by decide) (by decide)
    exact ⟨d, hd, (h2 (by decide)).1, (h2 (by decide)).2⟩

/-- C3: a nonempty remote-host override (the JSON API's `ip` parameter)
that parses as an address replaces the peer as the baseline host used
by proxy-trust resolution, while an override that fails to parse leaves
the connection-derived peer in place without failing the request; the
baseline host is what flows into the result (as the sole address when
no real-client headers parse, as the proxy address when they do). -/
theorem remote_host_override (r : HRequest) (rh : String) (peer : GoAddrPort)
    (hpeer : goParseAddrPort r.remoteAddr = some peer) (hne : rh ≠ "") :
    (∀ nh, goParseAddrPort rh = some nh → resolvedHost r rh = some nh) ∧
    (goParseAddrPort rh = none →
      resolvedHost r rh = some peer ∧ (remoteAddrWithRemoteHost r rh).isErr = false) ∧
    (realIPFromHdrs r.headers = none →
      (remoteAddrWithRemoteHost r rh).addr = resolvedHost r rh ∧
      (remoteAddrWithRemoteHost r rh).isErr = false) ∧
    (∀ ip, realIPFromHdrs r.headers = some ip →
      (remoteAddrWithRemoteHost r rh).prx = resolvedHost r rh ∧
      (remoteAddrWithRemoteHost r rh).addr = some ⟨ip, 0⟩) := by
  have hsome : ∃ h0, resolvedHost r rh = some h0 := by
    rw [resolvedHost, hpeer]
    dsimp only
    rw [if_pos hne]
    exact ⟨_, rfl⟩
  obtain ⟨h0, hh0⟩ := hsome
  refine ⟨?_, ?_, ?_, ?_⟩
  · intro nh hnh
    rw [resolvedHost, hpeer]
    dsimp only
    rw [if_pos hne, hnh]
    rfl
  · intro hnone
    have : resolvedHost r rh = some peer := by
      rw [resolvedHost, hpeer]
      dsimp only
      rw [if_pos hne, hnone]
      rfl
    refine ⟨this, ?_⟩
    rw [remoteAddrWithRemoteHost, this]
    dsimp only
    cases realIPFromHdrs r.headers <;> rfl
  · intro hhdr
    rw [remoteAddrWithRemoteHost, hh0, hhdr]
    exact ⟨rfl, rfl⟩
  · intro ip hhdr
    rw [remoteAddrWithRemoteHost, hh0, hhdr]
    exact ⟨rfl, rfl⟩

/-- C3 witness: an override with a port replaces the peer; an override
without one fails to parse and the peer stays, without an error. -/
theorem remote_host_override_witness :
    resolvedHost c2req "8.8.8.8:53" = some ⟨GoAddr.v4 8 8 8 8, 53⟩ ∧
    (resolvedHost c2req "8.8.8.8" = some ⟨GoAddr.v4 1 2 3 4, 5555⟩ ∧
      (remoteAddrWithRemoteHost c2req "8.8.8.8").isErr = false) := by
  constructor
  · exact (remote_host_override c2req "8.8.8.8:53" ⟨GoAddr.v4 1 2 3 4, 5555⟩
      (by decide) (by decide)).1 ⟨GoAddr.v4 8 8 8 8, 53⟩ (by decide)
  · exact (remote_host_override c2req "8.8.8.8" ⟨GoAddr.v4 1 2 3 4, 5555⟩
      (by decide) (by decide)).2.1 (by decide)

/-- C7: the decoder returns no DNS message and exactly these statuses:
405 for any method other than GET and POST; 415 for a POST whose
content type is not application/dns-message, regardless of body; 400
for a binary-path GET whose `dns` parameter fails base64url decoding or
decodes to the empty payload, and 400 whenever the decoded or posted
payload fails to unpack as a DNS message; a message is returned exactly
when the status is 200. -/
theorem decoder_status (r : HRequest) (freshId : Nat) :
    (r.method ≠ "GET" → r.method ≠ "POST" →
      newDoHOrHttpReq r freshId = ⟨none, 405, HttpDnsAnswerTypeDoh, ""⟩) ∧
    (r.method = "POST" → r.headers.contentType ≠ "application/dns-message" →
      newDoHOrHttpReq r freshId = ⟨none, 415, HttpDnsAnswerTypeDoh, ""⟩) ∧
    (r.method = "GET" → ¬ (r.path = HttpDnsUrlPathPrefix ∨ r.path = HttpDnsUrlPathPrefixBak) →
      (b64urlDecode r.query.dns = none ∨ b64urlDecode r.query.dns = some [] →
        newDoHOrHttpReq r freshId = ⟨none, 400, HttpDnsAnswerTypeDoh, ""⟩) ∧
      (∀ buf, b64urlDecode r.query.dns = some buf → unpackMsg buf = none →
        newDoHOrHttpReq r freshId = ⟨none, 400, HttpDnsAnswerTypeDoh, ""⟩)) ∧
    (r.method = "POST" → r.headers.contentType = "application/dns-message" →
      unpackMsg r.body = none →
      newDoHOrHttpReq r freshId = ⟨none, 400, HttpDnsAnswerTypeDoh, ""⟩) ∧
    ((newDoHOrHttpReq r freshId).req = none ↔
      (newDoHOrHttpReq r freshId).statusCode ≠ 200) := by
  refine ⟨?_, ?_, ?_, ?_, ?_⟩
  · intro h1 h2
    rw [newDoHOrHttpReq, if_neg h1, if_neg h2]
  · intro h1 h2
    rw [newDoHOrHttpReq]
    rw [if_neg (by rw [h1]; simp), if_pos h1, if_pos h2]
  · intro h1 h2
    constructor
    · intro hd
      rw [newDoHOrHttpReq, if_pos h1, if_neg h2]
      rcases hd with hd | hd
      · rw [hd]
      · rw [hd]
        dsimp only
        rw [if_pos rfl]
    · intro buf hbuf hun
      rw [newDoHOrHttpReq, if_pos h1, if_neg h2, hbuf]
      dsimp only
      by_cases hb : buf = []
      · rw [if_pos hb]
      · rw [if_neg hb, hun]
  · intro h1 h2 h3
    rw [newDoHOrHttpReq]
    rw [if_neg (by rw [h1]; simp), if_pos h1, if_neg (by rw [h2]; simp), h3]
  · rw [newDoHOrHttpReq]
    by_cases h1 : r.method = "GET"
    · rw [if_pos h1]
      by_cases h2 : r.path = HttpDnsUrlPathPrefix ∨ r.path = HttpDnsUrlPathPrefixBak
      · rw [if_pos h2]
        dsimp only
        cases hpa : (parseHTTPArgs r.query freshId).1 with
        | none => simp
        | some buf =>
          dsimp only
          by_cases h3 : buf = []
          · rw [if_pos h3]
            simp
          · rw [if_neg h3]
            cases hu : unpackMsg buf with
            | none => simp
            | some m => simp
      · rw [if_neg h2]
        cases hd : b64urlDecode r.query.dns with
        | none => simp
        | some buf =>
          dsimp only
          by_cases h3 : buf = []
          · rw [if_pos h3]
            simp
          · rw [if_neg h3]
            cases hu : unpackMsg buf with
            | none => simp
            | some m => simp
    · rw [if_neg h1]
      by_cases h2 : r.method = "POST"
      · rw [if_pos h2]
        by_cases h3 : r.headers.contentType ≠ "application/dns-message"
        · rw [if_pos h3]
          simp
        · rw [if_neg h3]
          cases hu : unpackMsg r.body with
          | none => simp
          | some m => simp
      · rw [if_neg h2]
        simp

/-- C7 witness: a PUT gets 405; a POST with a wrong content type gets
415 with any body; a binary GET with an empty `dns` parameter gets 400;
a POST whose payload does not unpack gets 400. -/
theorem decoder_status_witness :
    newDoHOrHttpReq { c9req with method := "PUT" } 0 =
      ⟨none, 405, HttpDnsAnswerTypeDoh, ""⟩ ∧
    newDoHOrHttpReq { c9req with
                      method := "POST"
                      headers := { emptyHeaders with contentType := "text/plain" }
                      body := [7] } 0 =
      ⟨none, 415, HttpDnsAnswerTypeDoh, ""⟩ ∧
    newDoHOrHttpReq { c9req with query := emptyQuery } 0 =
      ⟨none, 400, HttpDnsAnswerTypeDoh, ""⟩ ∧
    newDoHOrHttpReq { c9req with
                      method := "POST"
                      headers := { emptyHeaders with
                                   contentType := "application/dns-message" }
                      body := [7] } 0 =
      ⟨none, 400, HttpDnsAnswerTypeDoh, ""⟩ := by
  refine ⟨?_, ?_, ?_, ?_⟩
  · exact (decoder_status { c9req with method := "PUT" } 0).1 (by decide) (by decide)
  · exact (decoder_status { c9req with
      method := "POST"
      headers := { emptyHeaders with contentType := "text/plain" }
      body := [7] } 0).2.1 rfl (by decide)
  · exact ((decoder_status { c9req with query := emptyQuery } 0).2.2.1 rfl
      (by decide)).1 (Or.inr (by decide))
  · exact (decoder_status { c9req with
      method := "POST"
      headers := { emptyHeaders with contentType := "application/dns-message" }
      body := [7] } 0).2.2.2.1 rfl rfl (by decide)

/-- C8: with no credential configured, the guard authorizes
unconditionally; with a configured (user, pass) pair it authorizes
exactly when the presented Basic Auth username and password — the empty
pair when the header is missing or malformed, as the source discards
the `ok` flag — are byte-for-byte equal to the configured pair, and on
mismatch it sets WWW-Authenticate: Basic realm="DNS", charset="UTF-8",
writes 401 and signals that processing must not proceed. -/
theorem basic_auth_guard (userinfo : Option (String × String)) (r : HRequest) :
    (userinfo = none → checkBasicAuth userinfo r = ⟨true, none, none⟩) ∧
    (∀ ui, userinfo = some ui →
      (((checkBasicAuth userinfo r).shouldHandle = true) ↔
        ((parseBasicAuth r.headers.authorization).getD ("", "")).1 = ui.1 ∧
        ((parseBasicAuth r.headers.authorization).getD ("", "")).2 = ui.2) ∧
      (¬ (((parseBasicAuth r.headers.authorization).getD ("", "")).1 = ui.1 ∧
          ((parseBasicAuth r.headers.authorization).getD ("", "")).2 = ui.2) →
        checkBasicAuth userinfo r =
          ⟨false, some "Basic realm=\"DNS\", charset=\"UTF-8\"", some 401⟩)) := by
  constructor
  · intro h
    rw [checkBasicAuth.eq_def, h]
  · intro ui hui
    rw [checkBasicAuth.eq_def, hui]
    dsimp only
    constructor
    · by_cases hm : matchesUserinfo ui ((parseBasicAuth r.headers.authorization).getD ("", "")).1
        ((parseBasicAuth r.headers.authorization).getD ("", "")).2
      · rw [if_pos hm]
        simp only [true_iff, iff_true]
        rw [matchesUserinfo, Bool.and_eq_true, decide_eq_true_eq, decide_eq_true_eq] at hm
        exact hm
      · rw [if_neg hm]
        rw [matchesUserinfo, Bool.and_eq_true, decide_eq_true_eq, decide_eq_true_eq] at hm
        simp only [Bool.false_eq_true, false_iff]
        exact hm
    · intro hne
      rw [if_neg (by
        rw [matchesUserinfo, Bool.and_eq_true, decide_eq_true_eq, decide_eq_true_eq]
        exact hne)]

/-- C8 witness: no credential authorizes; with ("u","p") configured a
request without a header is rejected with the WWW-Authenticate header
and 401, and a request presenting u:p in standard base64 passes. -/
theorem basic_auth_guard_witness :
    checkBasicAuth none c2req = ⟨true, none, none⟩ ∧
    checkBasicAuth (some ("u", "p")) c2req =
      ⟨false, some "Basic realm=\"DNS\", charset=\"UTF-8\"", some 401⟩ ∧
    (checkBasicAuth (some ("u", "p"))
      { c2req with headers := { emptyHeaders with
                                authorization := "Basic dTpw" } }).shouldHandle = true := by
  refine ⟨(basic_auth_guard none c2req).1 rfl, ?_, ?_⟩
  · exact ((basic_auth_guard (some ("u", "p")) c2req).2 ("u", "p") rfl).2 (by decide)
  · exact (((basic_auth_guard (some ("u", "p"))
      { c2req with headers := { emptyHeaders with
                                authorization := "Basic dTpw" } }).2 ("u", "p") rfl).1).mpr
      (by decide)

/-! ## C6: header priority, spec-side reading and equivalence -/

theorem dropWhile_append_singleton {p : Char → Bool} {c : Char} (hc : p c = false) :
    ∀ xs : List Char, (xs ++ [c]).dropWhile p = xs.dropWhile p ++ [c] := by
  intro xs
  induction xs with
  | nil => simp [List.dropWhile, hc]
  | cons x xs ih =>
    simp only [List.cons_append, List.dropWhile_cons]
    by_cases hx : p x = true
    · rw [if_pos hx, if_pos hx, ih]
    · rw [if_neg hx, if_neg hx, List.cons_append]

theorem goTrimSpace_comma_head {t : List Char} :
    ∃ u, (goTrimSpace ⟨',' :: t⟩).data = ',' :: u := by
  have hns : ¬ (goIsSpace ',' = true) := by decide
  unfold goTrimSpace listTrim
  rw [List.dropWhile_cons, if_neg hns]
  rw [show (',' :: t).reverse = t.reverse ++ [','] by simp,
    dropWhile_append_singleton (by decide), List.reverse_append]
  exact ⟨_, rfl⟩

theorem splitOnChar_ne_nil (sep : Char) : ∀ cs : List Char, splitOnChar sep cs ≠ [] := by
  intro cs
  cases cs with
  | nil => simp [splitOnChar]
  | cons c rest =>
    rw [splitOnChar]
    by_cases hc : c = sep
    · rw [if_pos hc]
      simp
    · rw [if_neg hc]
      cases splitOnChar sep rest with
      | nil => simp
      | cons l ls => simp

theorem parseIPv4_comma_head (rest : List Char) : parseIPv4 (',' :: rest) = none := by
  rw [parseIPv4]
  have hsplit : ∃ l ls, splitOnChar '.' (',' :: rest) = (',' :: l) :: ls := by
    rw [splitOnChar, if_neg (by decide)]
    cases hs : splitOnChar '.' rest with
    | nil => exact absurd hs (splitOnChar_ne_nil '.' rest)
    | cons l ls => exact ⟨l, ls, rfl⟩
  obtain ⟨l, ls, hsplit⟩ := hsplit
  rw [hsplit]
  have hv4 : v4FieldVal (',' :: l) = none := by
    rw [v4FieldVal, if_neg]
    rintro ⟨-, hall, -⟩
    have := List.all_eq_true.mp hall ',' (List.mem_cons_self ',' l)
    simp at this
  rw [List.mapM_cons, hv4]
  rfl

theorem parseIPv6_comma_head (rest : List Char) : parseIPv6 (',' :: rest) = none := by
  have htake : (',' :: rest).takeWhile (· ≠ '%') = ',' :: rest.takeWhile (· ≠ '%') := by
    rw [List.takeWhile_cons, if_pos (by decide)]
  have hc1 : ¬ ((',' :: rest.takeWhile (· ≠ '%')).take 2 = [':', ':'] ∧
      (',' :: rest.takeWhile (· ≠ '%')).length = 2) := by
    rintro ⟨h1, -⟩
    rw [List.take_succ_cons, List.cons.injEq] at h1
    exact absurd h1.1 (by decide)
  have hc2 : ¬ ((',' :: rest.takeWhile (· ≠ '%')).take 2 = [':', ':']) := by
    intro h1
    rw [List.take_succ_cons, List.cons.injEq] at h1
    exact absurd h1.1 (by decide)
  have hloop : parseIPv6Loop 9 (',' :: rest.takeWhile (· ≠ '%')) [] none = none := rfl
  simp only [parseIPv6, htake]
  split
  · rfl
  · simp only [if_neg hc1, if_neg hc2, hloop]

theorem goParseAddr_comma_head {s : String} {t : List Char}
    (h : s.data = ',' :: t) : goParseAddr s = none := by
  rw [goParseAddr, h]
  have hk : addrKind (',' :: t) = addrKind t := by
    rw [addrKind]
    rw [if_neg (by decide), if_neg (by decide), if_neg (by decide)]
  rw [hk]
  cases hkv : addrKind t with
  | zero => rfl
  | succ n =>
    cases n with
    | zero => exact parseIPv4_comma_head t
    | succ n2 =>
      cases n2 with
      | zero => exact parseIPv6_comma_head t
      | succ n3 => rfl

/-- The claim's reading of the extraction order: the CDN connecting-IP
header, the true-client-IP header and X-Real-IP each parsed as a bare
address with the first success winning, then the first comma-separated
token of X-Forwarded-For.  This definition follows the specification's
words, to be compared with `realIPFromHdrs` from the source. -/
def realIPFromHdrsSpec (h : HHeaders) : Option GoAddr :=
  (goParseAddr (goTrimSpace h.cfConnectingIP)).orElse fun _ =>
    (goParseAddr (goTrimSpace h.trueClientIP)).orElse fun _ =>
      (goParseAddr (goTrimSpace h.xRealIP)).orElse fun _ =>
        goParseAddr (goTrimSpace ⟨h.xForwardedFor.data.takeWhile (· ≠ ',')⟩)

theorem realIPFromHdrs_eq_spec (h : HHeaders) :
    realIPFromHdrs h = realIPFromHdrsSpec h := by
  unfold realIPFromHdrs realIPFromHdrsSpec
  cases goParseAddr (goTrimSpace h.cfConnectingIP) with
  | some ip => rfl
  | none =>
    simp only [Option.none_orElse]
    cases goParseAddr (goTrimSpace h.trueClientIP) with
    | some ip => rfl
    | none =>
      simp only [Option.none_orElse]
      cases goParseAddr (goTrimSpace h.xRealIP) with
      | some ip => rfl
      | none =>
        simp only [Option.none_orElse]
        show goParseAddr (goTrimSpace
            ⟨if h.xForwardedFor.data.takeWhile (· ≠ ',') ≠ h.xForwardedFor.data ∧
                h.xForwardedFor.data.takeWhile (· ≠ ',') ≠ [] then
              h.xForwardedFor.data.takeWhile (· ≠ ',')
            else h.xForwardedFor.data⟩) =
          goParseAddr (goTrimSpace ⟨h.xForwardedFor.data.takeWhile (· ≠ ',')⟩)
        by_cases hpre : h.xForwardedFor.data.takeWhile (· ≠ ',') = h.xForwardedFor.data
        · rw [if_neg (by rintro ⟨h1, -⟩; exact h1 hpre), hpre]
        · by_cases hnil : h.xForwardedFor.data.takeWhile (· ≠ ',') = []
          · rw [if_neg (by rintro ⟨-, h2⟩; exact h2 hnil), hnil]
            obtain ⟨c, t, hxf, hc⟩ : ∃ c t, h.xForwardedFor.data = c :: t ∧ c = ',' := by
              cases hxf : h.xForwardedFor.data with
              | nil => rw [hxf] at hpre; rw [List.takeWhile_nil] at hpre; simp at hpre
              | cons c t =>
                refine ⟨c, t, rfl, ?_⟩
                rw [hxf] at hnil
                rw [List.takeWhile_cons] at hnil
                by_cases hct : c = ','
                · exact hct
                · rw [if_pos (by simp [hct])] at hnil
                  simp at hnil
            subst hc
            rw [hxf]
            obtain ⟨u, hu⟩ := goTrimSpace_comma_head (t := t)
            rw [goParseAddr_comma_head hu]
            have : goParseAddr (goTrimSpace ⟨[]⟩) = none := by decide
            rw [this]
          · rw [if_pos ⟨hpre, hnil⟩]

/-- C6: real-client extraction tries the CDN connecting-IP header, the
true-client-IP header and X-Real-IP in that order, each as a bare
trimmed address, then falls back to the first comma-separated token of
X-Forwarded-For; when none parse, the baseline (or overridden) peer is
the only address, no proxy address is reported, and no error is
raised. -/
theorem real_ip_priority (r : HRequest) (rh : String) (host : GoAddrPort)
    (hhost : resolvedHost r rh = some host) :
    realIPFromHdrs r.headers = realIPFromHdrsSpec r.headers ∧
    (realIPFromHdrs r.headers = none →
      remoteAddrWithRemoteHost r rh = ⟨some host, none, false⟩) ∧
    (∀ ip, realIPFromHdrs r.headers = some ip →
      remoteAddrWithRemoteHost r rh = ⟨some ⟨ip, 0⟩, some host, false⟩) := by
  refine ⟨realIPFromHdrs_eq_spec r.headers, ?_, ?_⟩
  · intro hn
    rw [remoteAddrWithRemoteHost, hhost, hn]
  · intro ip hs
    rw [remoteAddrWithRemoteHost, hhost, hs]

/-- A request whose CDN header is junk, whose true-client-IP header
holds a padded address, and whose X-Forwarded-For has two entries. -/
def c6req : HRequest :=
  ⟨"GET", "/resolve", "",
    emptyQuery,
    ⟨"bogus", " 7.7.7.7 ", "", "1.1.1.1, 2.2.2.2", "", ""⟩,
    "1.2.3.4:5555", []⟩

/-- C6 witness: the junk CDN header is skipped, the trimmed
true-client-IP wins, and it is reported as the real client with the
peer as proxy; a headerless request reports the peer alone. -/
theorem real_ip_priority_witness :
    realIPFromHdrs c6req.headers = realIPFromHdrsSpec c6req.headers ∧
    remoteAddrWithRemoteHost c6req "" =
      ⟨some ⟨GoAddr.v4 7 7 7 7, 0⟩, some ⟨GoAddr.v4 1 2 3 4, 5555⟩, false⟩ ∧
    remoteAddrWithRemoteHost c10req "" =
      ⟨some ⟨GoAddr.v4 1 2 3 4, 5555⟩, none, false⟩ := by
  refine ⟨(real_ip_priority c6req "" ⟨GoAddr.v4 1 2 3 4, 5555⟩ (by decide)).1, ?_, ?_⟩
  · exact (real_ip_priority c6req "" ⟨GoAddr.v4 1 2 3 4, 5555⟩ (by decide)).2.2
      (GoAddr.v4 7 7 7 7) (by decide)
  · exact (real_ip_priority c10req "" ⟨GoAddr.v4 1 2 3 4, 5555⟩ (by decide)).2.1
      (by decide)

end DnsProxy
